import Mathlib

/- Formal model of ashermyers/powerschool-notifier (src/main.go).

   The data records, the Go map operations used by the diff engine, the two
   diff functions (compareGradesAndNotifyChanges, compareAssignmentsAndNotifyChanges),
   the term-window selector and record projector inside fetchAndCompare, and the
   fetch cycle are embedded as executable Lean functions.  Calendar instants are
   modelled as integers (days since the Unix epoch, so the hard-coded sentinel
   dates 2000-01-01 and 2100-01-01 become the integers 10957 and 47482); Go
   int64 identifiers are modelled as Int (only equality and comparison are ever
   performed on them, so overflow is irrelevant). -/

set_option linter.unusedVariables false

namespace PSNotifier

/-- Go struct Class (src/main.go): course section id, display name, grade string. -/
structure Class where
  ID : Int
  Name : String
  Grade : String
deriving DecidableEq

/-- Go struct Assignment (src/main.go): assignment id, name, formatted grade,
    owning section id and denormalized class name. -/
structure Assignment where
  ID : Int
  Name : String
  Grade : String
  ClassID : Int
  ClassName : String
deriving DecidableEq

/-- One diff event, the abstract form of one entry of the `changes` slice built
    by the two compare functions.  The event keeps the id of the record it is
    about (the code only prints names; the id records provenance and lets the
    claims quantify over record identities).  Rendering functions below map each
    event to the exact string the Go code appends. -/
inductive Event where
  | gradeChanged (id : Int) (name ctx oldGrade newGrade : String)
  | added (id : Int) (name ctx grade : String)
  | removed (id : Int) (name ctx : String)
deriving DecidableEq

/-- The identity of the record an event talks about. -/
def eventId : Event → Int
  | .gradeChanged i _ _ _ _ => i
  | .added i _ _ _ => i
  | .removed i _ _ => i

/-- Recognizer for removed events. -/
def isRemovedEvent : Event → Bool
  | .removed _ _ _ => true
  | _ => false

/- Model of the Go built-in map with int64 keys, as an association list whose
   content (key-value association) is exactly the Go map content.  Insertion
   overwrites in place, so the list never holds two entries with the same key
   once built from the empty map. -/

/-- The keys of a map model, in entry order. -/
def mapKeys {β : Type} (m : List (Int × β)) : List Int := m.map (fun p => p.1)

/-- Go map read `m[k]` (the value part; `none` models the missing-key case). -/
def mapLookup {β : Type} (m : List (Int × β)) (k : Int) : Option β :=
  (m.find? (fun p => p.1 == k)).map (fun p => p.2)

/-- Go map write `m[k] = v`: overwrite the entry for `k` if present, else append. -/
def mapInsert {β : Type} (m : List (Int × β)) (k : Int) (v : β) : List (Int × β) :=
  if m.any (fun p => p.1 == k) then
    m.map (fun p => if p.1 == k then (k, v) else p)
  else
    m ++ [(k, v)]

/-- Go `delete(m, k)`. -/
def mapDelete {β : Type} (m : List (Int × β)) (k : Int) : List (Int × β) :=
  m.filter (fun p => !(p.1 == k))

theorem mapLookup_nil {β : Type} (k : Int) : mapLookup ([] : List (Int × β)) k = none := rfl

theorem mapLookup_cons {β : Type} (p : Int × β) (m : List (Int × β)) (k : Int) :
    mapLookup (p :: m) k = if p.1 = k then some p.2 else mapLookup m k := by
  by_cases h : p.1 = k
  · simp [mapLookup, List.find?_cons, h]
  · simp [mapLookup, List.find?_cons, h]

theorem mapLookup_eq_none_iff {β : Type} (m : List (Int × β)) (k : Int) :
    mapLookup m k = none ↔ ∀ p ∈ m, p.1 ≠ k := by
  induction m with
  | nil => simp [mapLookup]
  | cons p rest ih =>
    rw [mapLookup_cons]
    by_cases h : p.1 = k
    · simp [h]
    · simp [h, ih]

theorem mapLookup_append_single {β : Type} (m : List (Int × β)) (k : Int) (v : β) :
    mapLookup (m ++ [(k, v)]) k = (mapLookup m k).getD v := by
  induction m with
  | nil => simp [mapLookup_cons, mapLookup]
  | cons p rest ih =>
    by_cases h : p.1 = k
    · simp [mapLookup_cons, h]
    · simpa [mapLookup_cons, h] using ih

theorem mapLookup_append_single_ne {β : Type} (m : List (Int × β)) (k k' : Int) (v : β)
    (hne : k' ≠ k) :
    mapLookup (m ++ [(k, v)]) k' = mapLookup m k' := by
  induction m with
  | nil =>
    rw [List.nil_append, mapLookup_cons, mapLookup_nil]
    rw [if_neg (show ¬((k, v) : Int × β).1 = k' from fun h => hne h.symm)]
  | cons p rest ih =>
    rw [List.cons_append, mapLookup_cons, mapLookup_cons, ih]

theorem mapLookup_overwrite {β : Type} (m : List (Int × β)) (k : Int) (v : β)
    (h : m.any (fun p => p.1 == k) = true) :
    mapLookup (m.map (fun p => if p.1 == k then (k, v) else p)) k = some v := by
  simp only [beq_iff_eq]
  induction m with
  | nil => simp at h
  | cons p rest ih =>
    rw [List.map_cons, mapLookup_cons]
    by_cases hk : p.1 = k
    · rw [if_pos hk, if_pos (show ((k, v) : Int × β).1 = k from rfl)]
    · rw [if_neg hk, if_neg hk]
      apply ih
      simp only [List.any_cons, Bool.or_eq_true] at h
      rcases h with h | h
      · exact absurd (beq_iff_eq.mp h) hk
      · exact h

theorem mapLookup_overwrite_ne {β : Type} (m : List (Int × β)) (k k' : Int) (v : β)
    (hne : k' ≠ k) :
    mapLookup (m.map (fun p => if p.1 == k then (k, v) else p)) k' = mapLookup m k' := by
  simp only [beq_iff_eq]
  induction m with
  | nil => rfl
  | cons p rest ih =>
    rw [List.map_cons, mapLookup_cons, mapLookup_cons]
    by_cases hk : p.1 = k
    · rw [if_pos hk]
      rw [if_neg (show ¬((k, v) : Int × β).1 = k' from fun h => hne h.symm),
          if_neg (show ¬p.1 = k' from by rw [hk]; exact fun h => hne h.symm)]
      exact ih
    · rw [if_neg hk]
      by_cases hp' : p.1 = k'
      · rw [if_pos hp', if_pos hp']
      · rw [if_neg hp', if_neg hp']
        exact ih

theorem mapLookup_mapInsert_self {β : Type} (m : List (Int × β)) (k : Int) (v : β) :
    mapLookup (mapInsert m k v) k = some v := by
  unfold mapInsert
  by_cases h : m.any (fun p => p.1 == k) = true
  · rw [if_pos h]
    exact mapLookup_overwrite m k v h
  · rw [if_neg h]
    have h' : mapLookup m k = none := by
      rw [mapLookup_eq_none_iff]
      intro p hp hk
      exact h (List.any_eq_true.mpr ⟨p, hp, by simp [hk]⟩)
    rw [mapLookup_append_single, h', Option.getD_none]

theorem mapLookup_mapInsert_ne {β : Type} (m : List (Int × β)) (k k' : Int) (v : β)
    (hne : k' ≠ k) :
    mapLookup (mapInsert m k v) k' = mapLookup m k' := by
  unfold mapInsert
  by_cases h : m.any (fun p => p.1 == k) = true
  · rw [if_pos h]
    exact mapLookup_overwrite_ne m k k' v hne
  · rw [if_neg h]
    exact mapLookup_append_single_ne m k k' v hne

theorem mapLookup_mapDelete {β : Type} (m : List (Int × β)) (k k' : Int) :
    mapLookup (mapDelete m k) k' = if k' = k then none else mapLookup m k' := by
  induction m with
  | nil =>
    by_cases hk : k' = k
    · simp [mapDelete, mapLookup, hk]
    · simp [mapDelete, mapLookup, hk]
  | cons p rest ih =>
    show mapLookup ((p :: rest).filter (fun p => !(p.1 == k))) k' = _
    rw [List.filter_cons]
    by_cases hp : p.1 = k
    · rw [if_neg (by simp [hp])]
      rw [show rest.filter (fun p => !(p.1 == k)) = mapDelete rest k from rfl, ih]
      by_cases hk : k' = k
      · rw [if_pos hk, if_pos hk]
      · rw [if_neg hk, if_neg hk, mapLookup_cons,
            if_neg (show ¬p.1 = k' from by rw [hp]; exact fun h => hk h.symm)]
    · rw [if_pos (by simp [hp])]
      rw [mapLookup_cons,
          show rest.filter (fun p => !(p.1 == k)) = mapDelete rest k from rfl]
      by_cases hp' : p.1 = k'
      · rw [if_pos hp', mapLookup_cons, if_pos hp',
            if_neg (show ¬k' = k from by rw [← hp']; exact hp)]
      · rw [if_neg hp', mapLookup_cons, if_neg hp', ih]

theorem mapKeys_mapInsert {β : Type} (m : List (Int × β)) (k : Int) (v : β) :
    mapKeys (mapInsert m k v) =
      if m.any (fun p => p.1 == k) then mapKeys m else mapKeys m ++ [k] := by
  unfold mapInsert
  by_cases h : m.any (fun p => p.1 == k) = true
  · rw [if_pos h, if_pos h]
    unfold mapKeys
    rw [List.map_map]
    apply List.map_congr_left
    intro p hp
    by_cases hk : p.1 = k
    · simp [hk]
    · simp [hk]
  · rw [if_neg h, if_neg h]
    simp [mapKeys]

theorem nodup_mapKeys_mapInsert {β : Type} (m : List (Int × β)) (k : Int) (v : β)
    (h : (mapKeys m).Nodup) : (mapKeys (mapInsert m k v)).Nodup := by
  rw [mapKeys_mapInsert]
  by_cases ha : m.any (fun p => p.1 == k) = true
  · rw [if_pos ha]
    exact h
  · rw [if_neg ha]
    have hk : k ∉ mapKeys m := by
      intro hmem
      rcases List.mem_map.mp hmem with ⟨p, hp, hpk⟩
      exact ha (List.any_eq_true.mpr ⟨p, hp, by simp [hpk]⟩)
    rw [List.nodup_append]
    refine ⟨h, List.nodup_singleton k, ?_⟩
    intro a ha' hb
    rw [List.mem_singleton] at hb
    subst hb
    exact hk ha'

theorem mapKeys_mapDelete_sublist {β : Type} (m : List (Int × β)) (k : Int) :
    (mapKeys (mapDelete m k)).Sublist (mapKeys m) :=
  List.Sublist.map _ (List.filter_sublist m)

theorem nodup_mapKeys_mapDelete {β : Type} (m : List (Int × β)) (k : Int)
    (h : (mapKeys m).Nodup) : (mapKeys (mapDelete m k)).Nodup :=
  (mapKeys_mapDelete_sublist m k).nodup h

theorem mem_mapInsert {β : Type} (m : List (Int × β)) (k : Int) (v : β) (p : Int × β)
    (hp : p ∈ mapInsert m k v) : p ∈ m ∨ p = (k, v) := by
  unfold mapInsert at hp
  by_cases h : m.any (fun p => p.1 == k) = true
  · rw [if_pos h] at hp
    rcases List.mem_map.mp hp with ⟨q, hq, hqe⟩
    by_cases hk : q.1 = k
    · right
      rw [if_pos (by simpa using hk)] at hqe
      exact hqe.symm
    · left
      rw [if_neg (by simpa using hk)] at hqe
      rwa [← hqe]
  · rw [if_neg h] at hp
    rcases List.mem_append.mp hp with h' | h'
    · exact Or.inl h'
    · exact Or.inr (List.mem_singleton.mp h')

/- Characterizations of maps built by folding mapInsert over a list, the way
   every index in main.go is built (old-grades index, old-assignment index,
   section-title index, assignment-score index). -/

theorem mapLookup_foldl_mapInsert {γ β : Type} (key : γ → Int) (val : γ → β)
    (l : List γ) (k : Int) :
    mapLookup (l.foldl (fun m x => mapInsert m (key x) (val x)) []) k
      = (l.reverse.find? (fun x => key x == k)).map val := by
  induction l using List.reverseRecOn with
  | nil => rfl
  | append_singleton l x ih =>
    rw [List.foldl_append, List.foldl_cons, List.foldl_nil, List.reverse_append,
        List.reverse_singleton, List.singleton_append, List.find?_cons]
    by_cases hk : key x = k
    · simp only [hk, beq_self_eq_true]
      rw [← hk]
      rw [mapLookup_mapInsert_self]
      rfl
    · rw [show ((key x == k) = false) from by simpa using hk]
      rw [mapLookup_mapInsert_ne _ _ _ _ (fun h => hk h.symm), ih]

theorem mapLookup_foldl_mapInsertIf {γ β : Type} (cond : γ → Bool) (key : γ → Int)
    (val : γ → β) (l : List γ) (k : Int) :
    mapLookup (l.foldl (fun m x => if cond x then mapInsert m (key x) (val x) else m) []) k
      = (l.reverse.find? (fun x => cond x && (key x == k))).map val := by
  induction l using List.reverseRecOn with
  | nil => rfl
  | append_singleton l x ih =>
    rw [List.foldl_append, List.foldl_cons, List.foldl_nil, List.reverse_append,
        List.reverse_singleton, List.singleton_append, List.find?_cons]
    by_cases hc : cond x = true
    · rw [if_pos hc]
      by_cases hk : key x = k
      · simp only [hc, hk, beq_self_eq_true, Bool.and_self]
        rw [← hk, mapLookup_mapInsert_self]
        rfl
      · rw [show ((cond x && (key x == k)) = false) from by simp [hk]]
        rw [mapLookup_mapInsert_ne _ _ _ _ (fun h => hk h.symm), ih]
    · rw [if_neg hc]
      rw [show ((cond x && (key x == k)) = false) from by simp [hc]]
      exact ih

theorem foldl_mapInsert_fresh {γ β : Type} (key : γ → Int) (val : γ → β) :
    ∀ (l : List γ) (m : List (Int × β)),
      (l.map key).Nodup → (∀ x ∈ l, key x ∉ mapKeys m) →
      l.foldl (fun m x => mapInsert m (key x) (val x)) m
        = m ++ l.map (fun x => (key x, val x)) := by
  intro l
  induction l with
  | nil => intro m _ _; simp
  | cons x rest ih =>
    intro m hnd hfresh
    rw [List.foldl_cons]
    have hins : mapInsert m (key x) (val x) = m ++ [(key x, val x)] := by
      unfold mapInsert
      rw [if_neg]
      intro hany
      rcases List.any_eq_true.mp hany with ⟨p, hp, hpk⟩
      exact hfresh x (List.mem_cons_self x rest)
        (List.mem_map.mpr ⟨p, hp, beq_iff_eq.mp hpk⟩)
    rw [hins, ih (m ++ [(key x, val x)]) (by simpa using hnd.of_cons)]
    · simp
    · intro y hy hmem
      rw [mapKeys, List.map_append] at hmem
      rcases List.mem_append.mp hmem with h | h
      · exact hfresh y (List.mem_cons_of_mem x hy) h
      · simp only [List.map_cons, List.map_nil, List.mem_singleton] at h
        rw [List.map_cons, List.nodup_cons] at hnd
        exact hnd.1 (h ▸ List.mem_map.mpr ⟨y, hy, rfl⟩)

theorem foldl_mapInsert_of_nodup {γ β : Type} (key : γ → Int) (val : γ → β)
    (l : List γ) (hnd : (l.map key).Nodup) :
    l.foldl (fun m x => mapInsert m (key x) (val x)) []
      = l.map (fun x => (key x, val x)) := by
  rw [foldl_mapInsert_fresh key val l [] hnd (by intro x _ h; simp [mapKeys] at h)]
  rfl

theorem nodup_mapKeys_foldl_mapInsert {γ β : Type} (key : γ → Int) (val : γ → β) :
    ∀ (l : List γ) (m : List (Int × β)),
      (mapKeys m).Nodup →
      (mapKeys (l.foldl (fun m x => mapInsert m (key x) (val x)) m)).Nodup := by
  intro l
  induction l with
  | nil => intro m h; exact h
  | cons x rest ih =>
    intro m h
    rw [List.foldl_cons]
    exact ih _ (nodup_mapKeys_mapInsert m (key x) (val x) h)

theorem mapLookup_map_pairs {γ β : Type} (key : γ → Int) (val : γ → β) :
    ∀ (l : List γ) (x : γ), (l.map key).Nodup → x ∈ l →
      mapLookup (l.map (fun y => (key y, val y))) (key x) = some (val x) := by
  intro l
  induction l with
  | nil => intro x _ hx; exact absurd hx (List.not_mem_nil x)
  | cons y rest ih =>
    intro x hnd hx
    rw [List.map_cons, mapLookup_cons]
    by_cases hk : key y = key x
    · rw [if_pos hk]
      rcases List.mem_cons.mp hx with rfl | hx'
      · rfl
      · exfalso
        rw [List.map_cons, List.nodup_cons] at hnd
        exact hnd.1 (hk ▸ List.mem_map.mpr ⟨x, hx', rfl⟩)
    · rw [if_neg hk]
      rcases List.mem_cons.mp hx with rfl | hx'
      · exact absurd rfl hk
      · rw [List.map_cons, List.nodup_cons] at hnd
        exact ih x hnd.2 hx'

theorem mem_foldl_mapInsert {γ β : Type} (key : γ → Int) (val : γ → β) :
    ∀ (l : List γ) (m : List (Int × β)) (p : Int × β),
      p ∈ l.foldl (fun m x => mapInsert m (key x) (val x)) m →
      p ∈ m ∨ ∃ x ∈ l, p = (key x, val x) := by
  intro l
  induction l with
  | nil => intro m p hp; exact Or.inl hp
  | cons x rest ih =>
    intro m p hp
    rw [List.foldl_cons] at hp
    rcases ih _ p hp with h | ⟨y, hy, hpy⟩
    · rcases mem_mapInsert m (key x) (val x) p h with h' | h'
      · exact Or.inl h'
      · exact Or.inr ⟨x, List.mem_cons_self x rest, h'⟩
    · exact Or.inr ⟨y, List.mem_cons_of_mem x hy, hpy⟩

/- ===== The Diff Engine (compareGradesAndNotifyChanges,
   compareAssignmentsAndNotifyChanges in src/main.go) ===== -/

/-- The `oldGrades` index of compareGradesAndNotifyChanges: class id to grade. -/
def classOldGrades (oldClasses : List Class) : List (Int × String) :=
  oldClasses.foldl (fun m c => mapInsert m c.ID c.Grade) []

/-- One iteration of the new-classes loop of compareGradesAndNotifyChanges:
    the (zero or one) events appended for one new class.  The old index is
    consulted but never mutated by this loop in the source. -/
def classStep (oldGrades : List (Int × String)) (c : Class) : List Event :=
  match mapLookup oldGrades c.ID with
  | some oldGrade =>
    if oldGrade ≠ c.Grade then [Event.gradeChanged c.ID c.Name "" oldGrade c.Grade]
    else []
  | none => [Event.added c.ID c.Name "" c.Grade]

/-- The full `changes` list built by compareGradesAndNotifyChanges, as events.
    Note the source contains no loop over the leftover old index: the class
    diff never emits removed events. -/
def classDiffEvents (oldClasses newClasses : List Class) : List Event :=
  newClasses.foldl (fun changes c => changes ++ classStep (classOldGrades oldClasses) c) []

/-- The `oldAssignmentMap` index of compareAssignmentsAndNotifyChanges. -/
def assignOldMap (oldAssignments : List Assignment) : List (Int × Assignment) :=
  oldAssignments.foldl (fun m a => mapInsert m a.ID a) []

/-- The new-assignments loop of compareAssignmentsAndNotifyChanges: walks the
    new records, appends grade-changed or added events, and deletes matched ids
    from the working copy of the old index.  Returns the accumulated changes
    and the remaining old index. -/
def assignLoop : List Assignment → List (Int × Assignment) → List Event →
    List Event × List (Int × Assignment)
  | [], m, changes => (changes, m)
  | a :: rest, m, changes =>
    match mapLookup m a.ID with
    | some oldA =>
      assignLoop rest (mapDelete m a.ID)
        (if oldA.Grade ≠ a.Grade
         then changes ++ [Event.gradeChanged a.ID a.Name a.ClassName oldA.Grade a.Grade]
         else changes)
    | none => assignLoop rest m (changes ++ [Event.added a.ID a.Name a.ClassName a.Grade])

/-- Main pass of the assignment diff: loop over new records starting from the
    freshly built old index and an empty change list. -/
def assignDiffCore (old new : List Assignment) : List Event × List (Int × Assignment) :=
  assignLoop new (assignOldMap old) []

/-- The removed events appended by ranging over the leftover old index, taken
    here in the entry order of the index model.  The Go `range` over a map
    iterates in an unspecified order; `removedEventsOrd` below makes that
    order an explicit parameter. -/
def removedEventsOf (m : List (Int × Assignment)) : List Event :=
  m.map (fun p => Event.removed p.2.ID p.2.Name p.2.ClassName)

/-- The full `changes` list built by compareAssignmentsAndNotifyChanges, with
    the leftover old index ranged in entry order. -/
def assignDiffEvents (old new : List Assignment) : List Event :=
  (assignDiffCore old new).1 ++ removedEventsOf (assignDiffCore old new).2

/-- The removed events when the Go runtime happens to range over the leftover
    map in key order `ks`; an admissible run has `ks` a permutation of the
    remaining keys. -/
def removedEventsOrd (m : List (Int × Assignment)) (ks : List Int) : List Event :=
  ks.filterMap (fun k =>
    (mapLookup m k).map (fun a => Event.removed a.ID a.Name a.ClassName))

/-- The full assignment diff output for one run whose map range order is `ks`. -/
def assignDiffEventsOrd (old new : List Assignment) (ks : List Int) : List Event :=
  (assignDiffCore old new).1 ++ removedEventsOrd (assignDiffCore old new).2 ks

theorem assignLoop_nil (m : List (Int × Assignment)) (changes : List Event) :
    assignLoop [] m changes = (changes, m) := rfl

theorem assignLoop_cons (a : Assignment) (rest : List Assignment)
    (m : List (Int × Assignment)) (changes : List Event) :
    assignLoop (a :: rest) m changes =
      match mapLookup m a.ID with
      | some oldA =>
        assignLoop rest (mapDelete m a.ID)
          (if oldA.Grade ≠ a.Grade
           then changes ++ [Event.gradeChanged a.ID a.Name a.ClassName oldA.Grade a.Grade]
           else changes)
      | none => assignLoop rest m (changes ++ [Event.added a.ID a.Name a.ClassName a.Grade]) :=
  rfl

theorem assignLoop_changes_acc :
    ∀ (new : List Assignment) (m : List (Int × Assignment)) (evs : List Event),
      (assignLoop new m evs).1 = evs ++ (assignLoop new m []).1 := by
  intro new
  induction new with
  | nil => intro m evs; simp [assignLoop_nil]
  | cons a rest ih =>
    intro m evs
    rw [assignLoop_cons, assignLoop_cons]
    cases h : mapLookup m a.ID with
    | some oldA =>
      by_cases hg : oldA.Grade ≠ a.Grade
      · simp only [if_pos hg]
        rw [ih _ (evs ++ [Event.gradeChanged a.ID a.Name a.ClassName oldA.Grade a.Grade]),
            ih _ ([] ++ [Event.gradeChanged a.ID a.Name a.ClassName oldA.Grade a.Grade])]
        simp
      · simp only [if_neg hg]
        rw [ih _ evs]
    | none =>
      rw [ih _ (evs ++ [Event.added a.ID a.Name a.ClassName a.Grade]),
          ih _ ([] ++ [Event.added a.ID a.Name a.ClassName a.Grade])]
      simp

theorem assignLoop_snd :
    ∀ (new : List Assignment) (m : List (Int × Assignment)) (evs : List Event),
      (assignLoop new m evs).2
        = m.filter (fun p => !((new.map (fun a => a.ID)).contains p.1)) := by
  intro new
  induction new with
  | nil => intro m evs; simp [assignLoop_nil]
  | cons a rest ih =>
    intro m evs
    rw [assignLoop_cons]
    cases h : mapLookup m a.ID with
    | some oldA =>
      rw [show (match some oldA with
            | some oldA =>
              assignLoop rest (mapDelete m a.ID)
                (if oldA.Grade ≠ a.Grade
                 then evs ++ [Event.gradeChanged a.ID a.Name a.ClassName oldA.Grade a.Grade]
                 else evs)
            | none => assignLoop rest m (evs ++ [Event.added a.ID a.Name a.ClassName a.Grade]))
          = assignLoop rest (mapDelete m a.ID)
              (if oldA.Grade ≠ a.Grade
               then evs ++ [Event.gradeChanged a.ID a.Name a.ClassName oldA.Grade a.Grade]
               else evs) from rfl]
      rw [ih]
      unfold mapDelete
      rw [List.filter_filter]
      refine List.filter_congr ?_
      intro p hp
      simp only [List.map_cons, List.contains_cons, Bool.not_or]
      rw [Bool.and_comm]
    | none =>
      rw [show (match (none : Option Assignment) with
            | some oldA =>
              assignLoop rest (mapDelete m a.ID)
                (if oldA.Grade ≠ a.Grade
                 then evs ++ [Event.gradeChanged a.ID a.Name a.ClassName oldA.Grade a.Grade]
                 else evs)
            | none => assignLoop rest m (evs ++ [Event.added a.ID a.Name a.ClassName a.Grade]))
          = assignLoop rest m (evs ++ [Event.added a.ID a.Name a.ClassName a.Grade]) from rfl]
      rw [ih]
      refine List.filter_congr ?_
      intro p hp
      have hpk : p.1 ≠ a.ID := (mapLookup_eq_none_iff m a.ID).mp h p hp
      simp only [List.map_cons, List.contains_cons, Bool.not_or]
      rw [show (p.1 == a.ID) = false from by simpa using hpk]
      simp

theorem assignLoop_cons_fst (a : Assignment) (rest : List Assignment)
    (m : List (Int × Assignment)) :
    (assignLoop (a :: rest) m []).1 =
      (match mapLookup m a.ID with
       | some oldA =>
         (if oldA.Grade ≠ a.Grade
          then [Event.gradeChanged a.ID a.Name a.ClassName oldA.Grade a.Grade]
          else [])
           ++ (assignLoop rest (mapDelete m a.ID) []).1
       | none =>
         Event.added a.ID a.Name a.ClassName a.Grade :: (assignLoop rest m []).1) := by
  rw [assignLoop_cons]
  cases h : mapLookup m a.ID with
  | some oldA =>
    by_cases hg : oldA.Grade ≠ a.Grade
    · simp only [if_pos hg]
      rw [assignLoop_changes_acc]
      simp
    · simp only [if_neg hg]
      simp
  | none =>
    rw [assignLoop_changes_acc]
    simp

theorem assignLoop_cons_fst_some (a : Assignment) (rest : List Assignment)
    (m : List (Int × Assignment)) (oldA : Assignment)
    (h : mapLookup m a.ID = some oldA) :
    (assignLoop (a :: rest) m []).1 =
      (if oldA.Grade ≠ a.Grade
       then [Event.gradeChanged a.ID a.Name a.ClassName oldA.Grade a.Grade]
       else [])
        ++ (assignLoop rest (mapDelete m a.ID) []).1 := by
  rw [assignLoop_cons_fst, h]

theorem assignLoop_cons_fst_none (a : Assignment) (rest : List Assignment)
    (m : List (Int × Assignment)) (h : mapLookup m a.ID = none) :
    (assignLoop (a :: rest) m []).1 =
      Event.added a.ID a.Name a.ClassName a.Grade :: (assignLoop rest m []).1 := by
  rw [assignLoop_cons_fst, h]

theorem assignLoop_mem_fst :
    ∀ (new : List Assignment) (m : List (Int × Assignment)) (e : Event),
      e ∈ (assignLoop new m []).1 →
      ∃ a, a ∈ new ∧ eventId e = a.ID ∧ isRemovedEvent e = false := by
  intro new
  induction new with
  | nil => intro m e he; simp [assignLoop_nil] at he
  | cons a rest ih =>
    intro m e he
    cases h : mapLookup m a.ID with
    | some oldA =>
      rw [assignLoop_cons_fst_some a rest m oldA h] at he
      by_cases hg : oldA.Grade ≠ a.Grade
      · rw [if_pos hg] at he
        rcases List.mem_append.mp he with h' | h'
        · rcases List.mem_singleton.mp h' with rfl
          exact ⟨a, List.mem_cons_self a rest, rfl, rfl⟩
        · rcases ih _ e h' with ⟨b, hb, hid, hrem⟩
          exact ⟨b, List.mem_cons_of_mem a hb, hid, hrem⟩
      · rw [if_neg hg, List.nil_append] at he
        rcases ih _ e he with ⟨b, hb, hid, hrem⟩
        exact ⟨b, List.mem_cons_of_mem a hb, hid, hrem⟩
    | none =>
      rw [assignLoop_cons_fst_none a rest m h] at he
      rcases List.mem_cons.mp he with rfl | h'
      · exact ⟨a, List.mem_cons_self a rest, rfl, rfl⟩
      · rcases ih _ e h' with ⟨b, hb, hid, hrem⟩
        exact ⟨b, List.mem_cons_of_mem a hb, hid, hrem⟩

theorem assignLoop_not_removed (new : List Assignment) (m : List (Int × Assignment))
    (i : Int) (n c : String) :
    Event.removed i n c ∉ (assignLoop new m []).1 := by
  intro hmem
  rcases assignLoop_mem_fst new m _ hmem with ⟨a, _, _, hrem⟩
  simp [isRemovedEvent] at hrem

theorem assignLoop_countP_le :
    ∀ (new : List Assignment) (m : List (Int × Assignment)) (i : Int),
      ((assignLoop new m []).1.countP (fun e => eventId e == i))
        ≤ (new.map (fun a => a.ID)).count i := by
  intro new
  induction new with
  | nil => intro m i; simp [assignLoop_nil]
  | cons a rest ih =>
    intro m i
    rw [List.map_cons, List.count_cons]
    have hif : (if (a.ID == i) = true then 1 else 0)
        = (if (i == a.ID) = true then 1 else 0) := by
      by_cases hid : a.ID = i
      · simp [hid]
      · have h2 : ¬i = a.ID := fun hh => hid hh.symm
        simp [hid, h2]
    cases h : mapLookup m a.ID with
    | some oldA =>
      rw [assignLoop_cons_fst_some a rest m oldA h]
      by_cases hg : oldA.Grade ≠ a.Grade
      · rw [if_pos hg, List.singleton_append, List.countP_cons]
        have h2 := ih (mapDelete m a.ID) i
        have hred : eventId (Event.gradeChanged a.ID a.Name a.ClassName oldA.Grade
            a.Grade) = a.ID := rfl
        rw [hred, hif]
        omega
      · rw [if_neg hg, List.nil_append]
        have h2 := ih (mapDelete m a.ID) i
        have h3 : (0 : Nat) ≤ if (i == a.ID) = true then 1 else 0 := Nat.zero_le _
        omega
    | none =>
      rw [assignLoop_cons_fst_none a rest m h, List.countP_cons]
      have h2 := ih m i
      have hred : eventId (Event.added a.ID a.Name a.ClassName a.Grade) = a.ID := rfl
      rw [hred, hif]
      omega

theorem assignLoop_countP_zero_of_not_mem (new : List Assignment)
    (m : List (Int × Assignment)) (i : Int)
    (h : i ∉ new.map (fun a => a.ID)) :
    ((assignLoop new m []).1.countP (fun e => eventId e == i)) = 0 := by
  rw [List.countP_eq_zero]
  intro e he
  rcases assignLoop_mem_fst new m e he with ⟨a, ha, hid, _⟩
  simp only [beq_eq_false_iff_ne, ne_eq, Bool.not_eq_true]
  rw [hid]
  intro hai
  exact h (hai ▸ List.mem_map.mpr ⟨a, ha, rfl⟩)

theorem assignLoop_all_added :
    ∀ (new : List Assignment) (m : List (Int × Assignment)),
      (∀ a ∈ new, mapLookup m a.ID = none) →
      (assignLoop new m []).1
        = new.map (fun a => Event.added a.ID a.Name a.ClassName a.Grade) := by
  intro new
  induction new with
  | nil => intro m _; simp [assignLoop_nil]
  | cons a rest ih =>
    intro m hnone
    rw [assignLoop_cons_fst, hnone a (List.mem_cons_self a rest), List.map_cons]
    rw [ih m (fun b hb => hnone b (List.mem_cons_of_mem a hb))]

theorem assignLoop_countP_zero_of_match :
    ∀ (new : List Assignment) (m : List (Int × Assignment)) (i : Int)
      (oldA : Assignment),
      mapLookup m i = some oldA →
      (new.map (fun a => a.ID)).count i ≤ 1 →
      (∀ a ∈ new, a.ID = i → a.Grade = oldA.Grade) →
      ((assignLoop new m []).1.countP (fun e => eventId e == i)) = 0 := by
  intro new
  induction new with
  | nil => intro m i oldA _ _ _; simp [assignLoop_nil]
  | cons a rest ih =>
    intro m i oldA hm hcount hgrade
    by_cases hid : a.ID = i
    · have hma : mapLookup m a.ID = some oldA := by rw [hid]; exact hm
      rw [assignLoop_cons_fst_some a rest m oldA hma]
      have hg : ¬oldA.Grade ≠ a.Grade :=
        fun hne => hne (hgrade a (List.mem_cons_self a rest) hid).symm
      rw [if_neg hg, List.nil_append]
      apply assignLoop_countP_zero_of_not_mem
      rw [List.map_cons, List.count_cons] at hcount
      have hone : (if (a.ID == i) = true then 1 else 0) = 1 := by simp [hid]
      rw [hone] at hcount
      intro hmem
      have hpos := List.count_pos_iff.mpr hmem
      omega
    · have hcount' : (rest.map (fun a => a.ID)).count i ≤ 1 := by
        rw [List.map_cons, List.count_cons] at hcount
        omega
      have hgrade' : ∀ b ∈ rest, b.ID = i → b.Grade = oldA.Grade :=
        fun b hb => hgrade b (List.mem_cons_of_mem a hb)
      cases hma : mapLookup m a.ID with
      | some o =>
        have hdel : mapLookup (mapDelete m a.ID) i = some oldA := by
          rw [mapLookup_mapDelete, if_neg (fun h => hid h.symm)]
          exact hm
        rw [assignLoop_cons_fst_some a rest m o hma]
        by_cases hg : o.Grade ≠ a.Grade
        · rw [if_pos hg, List.singleton_append, List.countP_cons,
              ih (mapDelete m a.ID) i oldA hdel hcount' hgrade']
          have hred : eventId (Event.gradeChanged a.ID a.Name a.ClassName o.Grade
              a.Grade) = a.ID := rfl
          rw [hred]
          simp [hid]
        · rw [if_neg hg, List.nil_append]
          exact ih (mapDelete m a.ID) i oldA hdel hcount' hgrade'
      | none =>
        rw [assignLoop_cons_fst_none a rest m hma, List.countP_cons,
            ih m i oldA hm hcount' hgrade']
        have hred : eventId (Event.added a.ID a.Name a.ClassName a.Grade) = a.ID := rfl
        rw [hred]
        simp [hid]

/- Characterizations of the indexes built in the source. -/

theorem classOldGrades_lookup (oldClasses : List Class) (k : Int) :
    mapLookup (classOldGrades oldClasses) k
      = (oldClasses.reverse.find? (fun c => c.ID == k)).map (fun c => c.Grade) := by
  unfold classOldGrades
  exact mapLookup_foldl_mapInsert (fun c => c.ID) (fun c => c.Grade) oldClasses k

theorem assignOldMap_lookup (old : List Assignment) (k : Int) :
    mapLookup (assignOldMap old) k = old.reverse.find? (fun a => a.ID == k) := by
  unfold assignOldMap
  have := mapLookup_foldl_mapInsert (fun a => a.ID) (fun a => a) old k
  simpa using this

theorem assignOldMap_eq_pairs (old : List Assignment)
    (h : (old.map (fun a => a.ID)).Nodup) :
    assignOldMap old = old.map (fun a => (a.ID, a)) := by
  unfold assignOldMap
  exact foldl_mapInsert_of_nodup (fun a => a.ID) (fun a => a) old h

theorem nodup_mapKeys_assignOldMap (old : List Assignment) :
    (mapKeys (assignOldMap old)).Nodup := by
  unfold assignOldMap
  exact nodup_mapKeys_foldl_mapInsert _ _ old [] (by simp [mapKeys])

theorem mem_assignOldMap (old : List Assignment) (p : Int × Assignment)
    (hp : p ∈ assignOldMap old) : ∃ a ∈ old, p = (a.ID, a) := by
  unfold assignOldMap at hp
  rcases mem_foldl_mapInsert _ _ old [] p hp with h | h
  · exact absurd h (List.not_mem_nil p)
  · exact h

theorem classOldGrades_eq_pairs (old : List Class)
    (h : (old.map (fun c => c.ID)).Nodup) :
    classOldGrades old = old.map (fun c => (c.ID, c.Grade)) := by
  unfold classOldGrades
  exact foldl_mapInsert_of_nodup (fun c => c.ID) (fun c => c.Grade) old h

/- The class diff as a concatenation of per-record steps. -/

theorem foldl_append_eq_join {α ε : Type} (f : α → List ε) :
    ∀ (l : List α) (init : List ε),
      l.foldl (fun acc x => acc ++ f x) init = init ++ (l.map f).flatten := by
  intro l
  induction l with
  | nil => intro init; simp
  | cons x rest ih =>
    intro init
    rw [List.foldl_cons, ih, List.map_cons, List.flatten_cons, List.append_assoc]

theorem classDiffEvents_eq_join (oldClasses newClasses : List Class) :
    classDiffEvents oldClasses newClasses
      = (newClasses.map (classStep (classOldGrades oldClasses))).flatten := by
  unfold classDiffEvents
  rw [foldl_append_eq_join, List.nil_append]

theorem classStep_some (g : List (Int × String)) (c : Class) (oldGrade : String)
    (h : mapLookup g c.ID = some oldGrade) :
    classStep g c =
      if oldGrade ≠ c.Grade
      then [Event.gradeChanged c.ID c.Name "" oldGrade c.Grade]
      else [] := by
  unfold classStep
  rw [h]

theorem classStep_none (g : List (Int × String)) (c : Class)
    (h : mapLookup g c.ID = none) :
    classStep g c = [Event.added c.ID c.Name "" c.Grade] := by
  unfold classStep
  rw [h]

theorem classStep_mem (g : List (Int × String)) (c : Class) (e : Event)
    (he : e ∈ classStep g c) : eventId e = c.ID ∧ isRemovedEvent e = false := by
  cases h : mapLookup g c.ID with
  | some oldGrade =>
    rw [classStep_some g c oldGrade h] at he
    by_cases hg : oldGrade ≠ c.Grade
    · rw [if_pos hg] at he
      rcases List.mem_singleton.mp he with rfl
      exact ⟨rfl, rfl⟩
    · rw [if_neg hg] at he
      exact absurd he (List.not_mem_nil e)
  | none =>
    rw [classStep_none g c h] at he
    rcases List.mem_singleton.mp he with rfl
    exact ⟨rfl, rfl⟩

theorem classStep_length_le (g : List (Int × String)) (c : Class) :
    (classStep g c).length ≤ 1 := by
  cases h : mapLookup g c.ID with
  | some oldGrade =>
    rw [classStep_some g c oldGrade h]
    by_cases hg : oldGrade ≠ c.Grade
    · rw [if_pos hg]; exact Nat.le_refl 1
    · rw [if_neg hg]; exact Nat.zero_le 1
  | none =>
    rw [classStep_none g c h]
    exact Nat.le_refl 1

theorem classDiffEvents_mem (oldClasses newClasses : List Class) (e : Event)
    (he : e ∈ classDiffEvents oldClasses newClasses) :
    ∃ c, c ∈ newClasses ∧ e ∈ classStep (classOldGrades oldClasses) c := by
  rw [classDiffEvents_eq_join] at he
  rcases List.mem_flatten.mp he with ⟨l, hl, hel⟩
  rcases List.mem_map.mp hl with ⟨c, hc, rfl⟩
  exact ⟨c, hc, hel⟩

/- Facts about the leftover old index after the main assignment pass. -/

theorem assignDiffCore_snd (old new : List Assignment) :
    (assignDiffCore old new).2
      = (assignOldMap old).filter
          (fun p => !((new.map (fun a => a.ID)).contains p.1)) := by
  unfold assignDiffCore
  exact assignLoop_snd new _ []

theorem nodup_mapKeys_assignDiffCore_snd (old new : List Assignment) :
    (mapKeys (assignDiffCore old new).2).Nodup := by
  rw [assignDiffCore_snd]
  exact (((List.filter_sublist _).map _).nodup) (nodup_mapKeys_assignOldMap old)

theorem mem_assignDiffCore_snd (old new : List Assignment) (p : Int × Assignment)
    (hp : p ∈ (assignDiffCore old new).2) :
    (∃ a ∈ old, p = (a.ID, a)) ∧ p.1 ∉ new.map (fun a => a.ID) := by
  rw [assignDiffCore_snd] at hp
  rcases List.mem_filter.mp hp with ⟨hmem, hpred⟩
  refine ⟨mem_assignOldMap old p hmem, ?_⟩
  intro hin
  have htrue : ((new.map (fun a => a.ID)).contains p.1) = true :=
    List.elem_eq_true_of_mem hin
  rw [htrue] at hpred
  simp at hpred

theorem classDiffEvents_no_removed (oldClasses newClasses : List Class)
    (i : Int) (n c : String) :
    Event.removed i n c ∉ classDiffEvents oldClasses newClasses := by
  intro h
  rcases classDiffEvents_mem _ _ _ h with ⟨cl, _, hstep⟩
  have hrem := (classStep_mem _ _ _ hstep).2
  simp [isRemovedEvent] at hrem

/- ===== Rendering and the notification layer ===== -/

/-- The single-quote character (U+0027) used inside the Go format strings. -/
def sq : String := String.singleton (Char.ofNat 39)

/-- The exact string appended by compareGradesAndNotifyChanges via fmt.Sprintf
    for each event kind.  The removed case is unreachable -- the class diff
    never produces removed events (classDiffEvents_no_removed); it renders to
    the empty string. -/
def renderClassEvent : Event → String
  | .gradeChanged _ name _ o n =>
      "Grade changed for " ++ name ++ ": " ++ o ++ " -> " ++ n
  | .added _ name _ g => "New class added: " ++ name ++ " with grade " ++ g
  | .removed _ _ _ => ""

/-- The exact string appended by compareAssignmentsAndNotifyChanges via
    fmt.Sprintf for each event kind. -/
def renderAssignEvent : Event → String
  | .gradeChanged _ name cname o n =>
      "Grade changed for assignment " ++ sq ++ name ++ sq ++ " in class " ++ cname
        ++ ": " ++ o ++ " -> " ++ n
  | .added _ name cname g =>
      "New assignment added: " ++ sq ++ name ++ sq ++ " in class " ++ cname
        ++ " with grade " ++ g
  | .removed _ name cname =>
      "Assignment removed: " ++ sq ++ name ++ sq ++ " from class " ++ cname

/-- Go strings.Join(changes, newline). -/
def joinLines : List String → String
  | [] => ""
  | [s] => s
  | s :: rest => s ++ "\n" ++ joinLines rest

/-- The notifier model: sendDiscordNotification posts the message unless it is
    empty (the function returns early on an empty string).  The result is the
    message actually posted. -/
def sendDiscordNotification (message : String) : Option String :=
  if message = "" then none else some message

/-- compareGradesAndNotifyChanges, observed through its outbound effect: the
    notification posted for the class diff, or none when the code only logs
    that there are no changes. -/
def compareGradesAndNotifyChanges (oldClasses newClasses : List Class) :
    Option String :=
  if 0 < ((classDiffEvents oldClasses newClasses).map renderClassEvent).length
  then sendDiscordNotification
    (joinLines ((classDiffEvents oldClasses newClasses).map renderClassEvent))
  else none

/-- compareAssignmentsAndNotifyChanges, observed through its outbound effect. -/
def compareAssignmentsAndNotifyChanges (oldAssignments newAssignments : List Assignment) :
    Option String :=
  if 0 < ((assignDiffEvents oldAssignments newAssignments).map renderAssignEvent).length
  then sendDiscordNotification
    (joinLines ((assignDiffEvents oldAssignments newAssignments).map renderAssignEvent))
  else none

theorem joinLines_length_pos (s : String) (rest : List String) (hs : 0 < s.length) :
    0 < (joinLines (s :: rest)).length := by
  cases rest with
  | nil => simpa [joinLines] using hs
  | cons r t =>
    have : joinLines (s :: r :: t) = s ++ "\n" ++ joinLines (r :: t) := rfl
    rw [this, String.length_append, String.length_append]
    omega

theorem renderAssignEvent_length_pos (e : Event) :
    0 < (renderAssignEvent e).length := by
  cases e with
  | gradeChanged i n c o g =>
    have h : ("Grade changed for assignment " : String).length = 29 := rfl
    simp only [renderAssignEvent, String.length_append]
    omega
  | added i n c g =>
    have h : ("New assignment added: " : String).length = 22 := rfl
    simp only [renderAssignEvent, String.length_append]
    omega
  | removed i n c =>
    have h : ("Assignment removed: " : String).length = 20 := rfl
    simp only [renderAssignEvent, String.length_append]
    omega

theorem renderClassEvent_length_pos (e : Event) (h : isRemovedEvent e = false) :
    0 < (renderClassEvent e).length := by
  cases e with
  | gradeChanged i n c o g =>
    have h1 : ("Grade changed for " : String).length = 18 := rfl
    simp only [renderClassEvent, String.length_append]
    omega
  | added i n c g =>
    have h1 : ("New class added: " : String).length = 17 := rfl
    simp only [renderClassEvent, String.length_append]
    omega
  | removed i n c => simp [isRemovedEvent] at h

theorem string_ne_empty_of_length_pos (s : String) (h : 0 < s.length) : s ≠ "" := by
  intro he
  rw [he] at h
  simp at h

/-- The observable outcome of compareGradesAndNotifyChanges: no event means no
    notification; at least one event means exactly one message, the newline
    join of all rendered events. -/
theorem compareGrades_spec (oldClasses newClasses : List Class) :
    compareGradesAndNotifyChanges oldClasses newClasses
      = if classDiffEvents oldClasses newClasses = []
        then none
        else some (joinLines ((classDiffEvents oldClasses newClasses).map
            renderClassEvent)) := by
  unfold compareGradesAndNotifyChanges
  cases hev : classDiffEvents oldClasses newClasses with
  | nil => simp
  | cons e t =>
    rw [if_pos (show 0 < ((e :: t).map renderClassEvent).length from by simp)]
    rw [if_neg (show ¬(e :: t = ([] : List Event)) from by simp)]
    have hrem : isRemovedEvent e = false := by
      cases e with
      | gradeChanged i n c o g => rfl
      | added i n c g => rfl
      | removed i n c =>
        exact absurd (hev ▸ List.mem_cons_self _ t)
          (classDiffEvents_no_removed oldClasses newClasses i n c)
    have hlen : 0 < (joinLines ((e :: t).map renderClassEvent)).length := by
      rw [List.map_cons]
      exact joinLines_length_pos _ _ (renderClassEvent_length_pos e hrem)
    unfold sendDiscordNotification
    rw [if_neg (string_ne_empty_of_length_pos _ hlen)]

/-- The observable outcome of compareAssignmentsAndNotifyChanges. -/
theorem compareAssignments_spec (oldAssignments newAssignments : List Assignment) :
    compareAssignmentsAndNotifyChanges oldAssignments newAssignments
      = if assignDiffEvents oldAssignments newAssignments = []
        then none
        else some (joinLines ((assignDiffEvents oldAssignments newAssignments).map
            renderAssignEvent)) := by
  unfold compareAssignmentsAndNotifyChanges
  cases hev : assignDiffEvents oldAssignments newAssignments with
  | nil => simp
  | cons e t =>
    rw [if_pos (show 0 < ((e :: t).map renderAssignEvent).length from by simp)]
    rw [if_neg (show ¬(e :: t = ([] : List Event)) from by simp)]
    have hlen : 0 < (joinLines ((e :: t).map renderAssignEvent)).length := by
      rw [List.map_cons]
      exact joinLines_length_pos _ _ (renderAssignEvent_length_pos e)
    unfold sendDiscordNotification
    rw [if_neg (string_ne_empty_of_length_pos _ hlen)]

/- ===== fetchAndCompare: upstream data model, term window selector and
   record projector (src/main.go) ===== -/

/-- One course section of the upstream student record (only the fields main.go
    reads from the external powerschool package). -/
structure CourseSection where
  Id : Int
  SchoolCourseTitle : String
deriving DecidableEq

/-- One reporting term of the upstream student record. -/
structure ReportingTerm where
  Id : Int
  Title : String
  StartDate : Int
  EndDate : Int
deriving DecidableEq

/-- One final-grade entry of the upstream student record. -/
structure FinalGrade where
  Sectionid : Int
  ReportingTermId : Int
  Grade : String
deriving DecidableEq

/-- One raw assignment of the upstream student record. -/
structure RawAssignment where
  Id : Int
  Name : String
  Sectionid : Int
  DueDate : Int
deriving DecidableEq

/-- One assignment-score entry; an empty Score string means ungraded. -/
structure AssignmentScore where
  AssignmentId : Int
  Score : String
deriving DecidableEq

/-- The student record returned by client.GetStudent. -/
structure Student where
  Sections : List CourseSection
  ReportingTerms : List ReportingTerm
  FinalGrades : List FinalGrade
  Assignments : List RawAssignment
  AssignmentScores : List AssignmentScore
deriving DecidableEq

/-- Day number of 2000-01-01, the parsed initial termDueDate sentinel. -/
def date20000101 : Int := 10957

/-- Day number of 2100-01-01, the parsed initial termBeginDate sentinel. -/
def date21000101 : Int := 47482

/-- The Go strings.HasPrefix(title, "Q") test: since the pattern is the single
    character Q, a title matches exactly when its first character is Q.  (The
    library String.startsWith does not reduce inside the kernel, so the test is
    stated on the character list of the title.) -/
def titleHasQ (title : String) : Bool :=
  match title.data with
  | [] => false
  | c :: _ => c == 'Q'

/-- The Go test for one reporting term at instant now:
    time.Now().After(startDate), time.Now().Before(endDate), and the title
    has the literal prefix Q. -/
def isActive (now : Int) (t : ReportingTerm) : Bool :=
  decide (t.StartDate < now) && decide (now < t.EndDate) && titleHasQ t.Title

/-- Accumulator of the reporting-terms loop: the allowedTerms id set and the
    two window bounds. -/
structure TermWindow where
  allowedTerms : List Int
  termBeginDate : Int
  termDueDate : Int
deriving DecidableEq

/-- One iteration of the reporting-terms loop of fetchAndCompare: an active
    quarter term joins the allowed set and widens the window (its end date
    raises termDueDate if later, its start date lowers termBeginDate if
    earlier). -/
def termStep (now : Int) (w : TermWindow) (t : ReportingTerm) : TermWindow :=
  if isActive now t then
    { allowedTerms :=
        if w.allowedTerms.contains t.Id then w.allowedTerms else w.allowedTerms ++ [t.Id]
      termDueDate := if w.termDueDate < t.EndDate then t.EndDate else w.termDueDate
      termBeginDate := if t.StartDate < w.termBeginDate then t.StartDate else w.termBeginDate }
  else w

/-- The whole reporting-terms loop, starting from the empty allowed set and the
    inverted sentinel window (begin 2100-01-01, due 2000-01-01). -/
def computeTermWindow (terms : List ReportingTerm) (now : Int) : TermWindow :=
  terms.foldl (termStep now) ⟨[], date21000101, date20000101⟩

/-- The idMap of fetchAndCompare: section id to course title. -/
def buildIdMap (sections : List CourseSection) : List (Int × String) :=
  sections.foldl (fun m c => mapInsert m c.Id c.SchoolCourseTitle) []

/-- The newClasses loop of fetchAndCompare: one Class per final grade whose
    reporting term is allowed; the name is the idMap entry for the section id
    (Go yields the zero value, the empty string, when the key is missing). -/
def projectClasses (student : Student) (now : Int) : List Class :=
  student.FinalGrades.foldl
    (fun acc fg =>
      if (computeTermWindow student.ReportingTerms now).allowedTerms.contains
          fg.ReportingTermId
      then acc ++ [{ ID := fg.Sectionid
                     Name := (mapLookup (buildIdMap student.Sections) fg.Sectionid).getD ""
                     Grade := fg.Grade }]
      else acc) []

/-- The assignmentScoreMap loop of fetchAndCompare: only non-empty scores are
    recorded, formatted with a trailing percent sign. -/
def buildScoreMap (scores : List AssignmentScore) : List (Int × String) :=
  scores.foldl
    (fun m s =>
      if s.Score ≠ "" then mapInsert m s.AssignmentId (s.Score ++ "%") else m) []

/-- Body of the newAssignments loop for one raw assignment: the record
    appended, if any.  The loop keeps an assignment exactly when its due date
    is strictly inside the window and its id is in the score map; the class
    name is the first projected class with a matching id, or empty. -/
def assignProj (w : TermWindow) (scoreMap : List (Int × String))
    (classes : List Class) (a : RawAssignment) : Option Assignment :=
  if a.DueDate < w.termDueDate ∧ w.termBeginDate < a.DueDate then
    match mapLookup scoreMap a.Id with
    | none => none
    | some g =>
      some { ID := a.Id
             Name := a.Name
             Grade := g
             ClassID := a.Sectionid
             ClassName := (((classes.find? (fun c => c.ID == a.Sectionid)).map
               (fun c => c.Name)).getD "") }
  else none

/-- The newAssignments loop of fetchAndCompare. -/
def projectAssignments (student : Student) (now : Int) : List Assignment :=
  student.Assignments.foldl
    (fun acc a =>
      match assignProj (computeTermWindow student.ReportingTerms now)
          (buildScoreMap student.AssignmentScores) (projectClasses student now) a with
      | none => acc
      | some r => acc ++ [r]) []

/-- The persisted snapshot pair (backup_classes.json, backup_assignments.json). -/
structure SnapshotState where
  classes : List Class
  assignments : List Assignment
deriving DecidableEq

/-- One fetchAndCompare cycle.  The upstream call client.GetStudent is an
    external black box; its outcome is the parameter fetchResult (none models a
    non-nil error).  On failure the code logs and returns before both diffs and
    both saves; on success it projects the new collections, runs both diffs
    (each possibly posting one notification), and saves the projections as the
    new snapshots.  The result is the persisted state after the cycle and the
    two notifications posted, class message first. -/
def fetchAndCompare (st : SnapshotState) (fetchResult : Option Student) (now : Int) :
    SnapshotState × (Option String × Option String) :=
  match fetchResult with
  | none => (st, (none, none))
  | some student =>
    ({ classes := projectClasses student now
       assignments := projectAssignments student now },
     (compareGradesAndNotifyChanges st.classes (projectClasses student now),
      compareAssignmentsAndNotifyChanges st.assignments (projectAssignments student now)))

/- Lemmas for the term window selector. -/

theorem isActive_iff (now : Int) (t : ReportingTerm) :
    isActive now t = true
      ↔ t.StartDate < now ∧ now < t.EndDate ∧ titleHasQ t.Title = true := by
  unfold isActive
  simp [Bool.and_eq_true, decide_eq_true_eq, and_assoc]

theorem termStep_begin (now : Int) (w : TermWindow) (t : ReportingTerm) :
    (termStep now w t).termBeginDate
      = if isActive now t
        then (if t.StartDate < w.termBeginDate then t.StartDate else w.termBeginDate)
        else w.termBeginDate := by
  unfold termStep
  by_cases h : isActive now t = true
  · rw [if_pos h, if_pos h]
  · rw [if_neg h, if_neg h]

theorem termStep_due (now : Int) (w : TermWindow) (t : ReportingTerm) :
    (termStep now w t).termDueDate
      = if isActive now t
        then (if w.termDueDate < t.EndDate then t.EndDate else w.termDueDate)
        else w.termDueDate := by
  unfold termStep
  by_cases h : isActive now t = true
  · rw [if_pos h, if_pos h]
  · rw [if_neg h, if_neg h]

theorem foldl_termStep_begin (now : Int) :
    ∀ (terms : List ReportingTerm) (w : TermWindow),
      ((terms.foldl (termStep now) w).termBeginDate = w.termBeginDate
        ∨ ∃ t ∈ terms, isActive now t = true
            ∧ (terms.foldl (termStep now) w).termBeginDate = t.StartDate)
      ∧ (terms.foldl (termStep now) w).termBeginDate ≤ w.termBeginDate
      ∧ (∀ t ∈ terms, isActive now t = true →
          (terms.foldl (termStep now) w).termBeginDate ≤ t.StartDate) := by
  intro terms
  induction terms with
  | nil =>
    intro w
    exact ⟨Or.inl rfl, le_refl _, fun t ht _ => absurd ht (List.not_mem_nil t)⟩
  | cons t ts ih =>
    intro w
    rw [List.foldl_cons]
    rcases ih (termStep now w t) with ⟨hdisj, hle, hall⟩
    have hstep_le : (termStep now w t).termBeginDate ≤ w.termBeginDate := by
      rw [termStep_begin]
      by_cases h : isActive now t = true
      · rw [if_pos h]; split <;> omega
      · rw [if_neg h]
    have hstep_cases : (termStep now w t).termBeginDate = w.termBeginDate
        ∨ (isActive now t = true ∧ (termStep now w t).termBeginDate = t.StartDate) := by
      rw [termStep_begin]
      by_cases h : isActive now t = true
      · rw [if_pos h]
        by_cases h2 : t.StartDate < w.termBeginDate
        · exact Or.inr ⟨h, by rw [if_pos h2]⟩
        · exact Or.inl (by rw [if_neg h2])
      · exact Or.inl (by rw [if_neg h])
    have hstep_act : isActive now t = true →
        (termStep now w t).termBeginDate ≤ t.StartDate ∨
        (termStep now w t).termBeginDate = w.termBeginDate ∧
          w.termBeginDate ≤ t.StartDate := by
      intro h
      rw [termStep_begin, if_pos h]
      by_cases h2 : t.StartDate < w.termBeginDate
      · rw [if_pos h2]; exact Or.inl (le_refl _)
      · rw [if_neg h2]; exact Or.inr ⟨rfl, by omega⟩
    refine ⟨?_, le_trans hle hstep_le, ?_⟩
    · rcases hdisj with h | ⟨u, hu, hactu, hequ⟩
      · rcases hstep_cases with h2 | ⟨hact, h2⟩
        · exact Or.inl (h.trans h2)
        · exact Or.inr ⟨t, List.mem_cons_self t ts, hact, h.trans h2⟩
      · exact Or.inr ⟨u, List.mem_cons_of_mem t hu, hactu, hequ⟩
    · intro u hu hactu
      rcases List.mem_cons.mp hu with rfl | hu'
      · rcases hstep_act hactu with h | ⟨heq, hwle⟩
        · exact le_trans hle h
        · exact le_trans hle (heq ▸ hwle)
      · exact hall u hu' hactu

theorem foldl_termStep_due (now : Int) :
    ∀ (terms : List ReportingTerm) (w : TermWindow),
      ((terms.foldl (termStep now) w).termDueDate = w.termDueDate
        ∨ ∃ t ∈ terms, isActive now t = true
            ∧ (terms.foldl (termStep now) w).termDueDate = t.EndDate)
      ∧ w.termDueDate ≤ (terms.foldl (termStep now) w).termDueDate
      ∧ (∀ t ∈ terms, isActive now t = true →
          t.EndDate ≤ (terms.foldl (termStep now) w).termDueDate) := by
  intro terms
  induction terms with
  | nil =>
    intro w
    exact ⟨Or.inl rfl, le_refl _, fun t ht _ => absurd ht (List.not_mem_nil t)⟩
  | cons t ts ih =>
    intro w
    rw [List.foldl_cons]
    rcases ih (termStep now w t) with ⟨hdisj, hle, hall⟩
    have hstep_le : w.termDueDate ≤ (termStep now w t).termDueDate := by
      rw [termStep_due]
      by_cases h : isActive now t = true
      · rw [if_pos h]; split <;> omega
      · rw [if_neg h]
    have hstep_cases : (termStep now w t).termDueDate = w.termDueDate
        ∨ (isActive now t = true ∧ (termStep now w t).termDueDate = t.EndDate) := by
      rw [termStep_due]
      by_cases h : isActive now t = true
      · rw [if_pos h]
        by_cases h2 : w.termDueDate < t.EndDate
        · exact Or.inr ⟨h, by rw [if_pos h2]⟩
        · exact Or.inl (by rw [if_neg h2])
      · exact Or.inl (by rw [if_neg h])
    have hstep_act : isActive now t = true →
        t.EndDate ≤ (termStep now w t).termDueDate := by
      intro h
      rw [termStep_due, if_pos h]
      by_cases h2 : w.termDueDate < t.EndDate
      · rw [if_pos h2]
      · rw [if_neg h2]; omega
    refine ⟨?_, le_trans hstep_le hle, ?_⟩
    · rcases hdisj with h | ⟨u, hu, hactu, hequ⟩
      · rcases hstep_cases with h2 | ⟨hact, h2⟩
        · exact Or.inl (h.trans h2)
        · exact Or.inr ⟨t, List.mem_cons_self t ts, hact, h.trans h2⟩
      · exact Or.inr ⟨u, List.mem_cons_of_mem t hu, hactu, hequ⟩
    · intro u hu hactu
      rcases List.mem_cons.mp hu with rfl | hu'
      · exact le_trans (hstep_act hactu) hle
      · exact hall u hu' hactu

theorem foldl_termStep_inactive (now : Int) :
    ∀ (terms : List ReportingTerm) (w : TermWindow),
      (∀ t ∈ terms, isActive now t = false) →
      terms.foldl (termStep now) w = w := by
  intro terms
  induction terms with
  | nil => intro w _; rfl
  | cons t ts ih =>
    intro w h
    rw [List.foldl_cons]
    have hstep : termStep now w t = w := by
      unfold termStep
      rw [if_neg (by simp [h t (List.mem_cons_self t ts)])]
    rw [hstep, ih w (fun u hu => h u (List.mem_cons_of_mem t hu))]

theorem computeTermWindow_inactive (terms : List ReportingTerm) (now : Int)
    (h : ∀ t ∈ terms, isActive now t = false) :
    computeTermWindow terms now = ⟨[], date21000101, date20000101⟩ := by
  unfold computeTermWindow
  exact foldl_termStep_inactive now terms _ h

/- Lemmas for the record projector. -/

theorem foldl_option_eq_filterMap {α β : Type} (f : α → Option β) :
    ∀ (l : List α) (init : List β),
      l.foldl (fun acc x => match f x with | none => acc | some y => acc ++ [y]) init
        = init ++ l.filterMap f := by
  intro l
  induction l with
  | nil => intro init; simp
  | cons x rest ih =>
    intro init
    rw [List.foldl_cons]
    cases hf : f x with
    | none =>
      rw [show (match (none : Option β) with
            | none => init
            | some y => init ++ [y]) = init from rfl]
      rw [ih, List.filterMap_cons, hf]
    | some y =>
      rw [show (match (some y : Option β) with
            | none => init
            | some y => init ++ [y]) = init ++ [y] from rfl]
      rw [ih, List.filterMap_cons, hf]
      simp

theorem projectAssignments_eq_filterMap (student : Student) (now : Int) :
    projectAssignments student now
      = student.Assignments.filterMap
          (assignProj (computeTermWindow student.ReportingTerms now)
            (buildScoreMap student.AssignmentScores) (projectClasses student now)) := by
  unfold projectAssignments
  have h := foldl_option_eq_filterMap
    (assignProj (computeTermWindow student.ReportingTerms now)
      (buildScoreMap student.AssignmentScores) (projectClasses student now))
    student.Assignments []
  rw [List.nil_append] at h
  refine Eq.trans ?_ h
  congr 1
  funext acc a
  cases assignProj (computeTermWindow student.ReportingTerms now)
      (buildScoreMap student.AssignmentScores) (projectClasses student now) a <;> rfl

theorem buildScoreMap_lookup (scores : List AssignmentScore) (k : Int) :
    mapLookup (buildScoreMap scores) k
      = (scores.reverse.find?
          (fun s => (!(s.Score == "")) && (s.AssignmentId == k))).map
          (fun s => s.Score ++ "%") := by
  have hfun : (fun (m : List (Int × String)) (s : AssignmentScore) =>
        if s.Score ≠ "" then mapInsert m s.AssignmentId (s.Score ++ "%") else m)
      = (fun (m : List (Int × String)) (s : AssignmentScore) =>
        if (fun s : AssignmentScore => !(s.Score == "")) s
        then mapInsert m ((fun s : AssignmentScore => s.AssignmentId) s)
          ((fun s : AssignmentScore => s.Score ++ "%") s)
        else m) := by
    funext m s
    by_cases h : s.Score = ""
    · rw [if_neg (by simp [h]), if_neg (by simp [h])]
    · rw [if_pos h, if_pos (by simp [h])]
  unfold buildScoreMap
  rw [hfun]
  exact mapLookup_foldl_mapInsertIf _ _ _ scores k

/- Wrapper window lemmas stated on computeTermWindow. -/

theorem computeTermWindow_begin_spec (terms : List ReportingTerm) (now : Int) :
    ((computeTermWindow terms now).termBeginDate = date21000101
      ∨ ∃ t ∈ terms, isActive now t = true
          ∧ (computeTermWindow terms now).termBeginDate = t.StartDate)
    ∧ (∀ t ∈ terms, isActive now t = true →
        (computeTermWindow terms now).termBeginDate ≤ t.StartDate) := by
  have h := foldl_termStep_begin now terms ⟨[], date21000101, date20000101⟩
  exact ⟨h.1, h.2.2⟩

theorem computeTermWindow_due_spec (terms : List ReportingTerm) (now : Int) :
    ((computeTermWindow terms now).termDueDate = date20000101
      ∨ ∃ t ∈ terms, isActive now t = true
          ∧ (computeTermWindow terms now).termDueDate = t.EndDate)
    ∧ (∀ t ∈ terms, isActive now t = true →
        t.EndDate ≤ (computeTermWindow terms now).termDueDate) := by
  have h := foldl_termStep_due now terms ⟨[], date21000101, date20000101⟩
  exact ⟨h.1, h.2.2⟩

/- ===== Claim theorems ===== -/

/-- C8: a failed upstream fetch (client.GetStudent returning an error) aborts
    the cycle before either diff is run and before any save: the persisted
    snapshot pair comes back unchanged and no notification is posted for
    either kind. -/
theorem C8_fetch_failure_frame (st : SnapshotState) (now : Int) :
    fetchAndCompare st none now = (st, (none, none)) := rfl

/-- C6: when no reporting term is active (no term with title prefix Q whose
    start date is strictly before now and end date strictly after now), the
    derived window keeps its inverted sentinel bounds -- lower bound
    2100-01-01 strictly later than upper bound 2000-01-01 -- so no due date
    lies strictly inside it and the projected assignment collection is
    empty. -/
theorem C6_no_active_term_empty_window (student : Student) (now : Int)
    (h : ∀ t ∈ student.ReportingTerms, isActive now t = false) :
    (computeTermWindow student.ReportingTerms now).termDueDate
        < (computeTermWindow student.ReportingTerms now).termBeginDate
      ∧ projectAssignments student now = [] := by
  have hw := computeTermWindow_inactive student.ReportingTerms now h
  constructor
  · rw [hw]
    show date20000101 < date21000101
    decide
  · rw [projectAssignments_eq_filterMap]
    rw [List.filterMap_eq_nil_iff]
    intro a ha
    unfold assignProj
    rw [hw]
    rw [if_neg]
    intro hcond
    have h1 : a.DueDate < date20000101 := hcond.1
    have h2 : date21000101 < a.DueDate := hcond.2
    have h3 : date20000101 = 10957 := rfl
    have h4 : date21000101 = 47482 := rfl
    omega

/-- C6 witness: a student whose only reporting term brackets now but is a
    semester term (no Q prefix): nothing is active, the window is inverted and
    no assignment is projected even though one is graded and inside the term
    dates. -/
theorem C6_witness :
    (∀ t ∈ ([⟨1, "S1", 10000, 20000⟩] : List ReportingTerm), isActive 15000 t = false)
    ∧ ((computeTermWindow
          (Student.mk [] [⟨1, "S1", 10000, 20000⟩] [] [⟨5, "hw", 7, 15000⟩]
            [⟨5, "88"⟩]).ReportingTerms 15000).termDueDate
        < (computeTermWindow
            (Student.mk [] [⟨1, "S1", 10000, 20000⟩] [] [⟨5, "hw", 7, 15000⟩]
              [⟨5, "88"⟩]).ReportingTerms 15000).termBeginDate
      ∧ projectAssignments
          (Student.mk [] [⟨1, "S1", 10000, 20000⟩] [] [⟨5, "hw", 7, 15000⟩]
            [⟨5, "88"⟩]) 15000 = []) :=
  ⟨by decide,
   C6_no_active_term_empty_window
     (Student.mk [] [⟨1, "S1", 10000, 20000⟩] [] [⟨5, "hw", 7, 15000⟩] [⟨5, "88"⟩])
     15000 (by decide)⟩

/-- C5: whenever at least one quarter term is active -- and the wall clock
    lies between the two hard-coded sentinel dates, as it does on any actual
    run of the program -- the derived window is exactly the union of all
    active terms: its lower bound is the minimum start date over active terms
    (attained by one of them) and its upper bound the maximum end date over
    active terms, not merely the bounds of the first active term found. -/
theorem C5_window_union_of_active_terms (terms : List ReportingTerm) (now : Int)
    (t0 : ReportingTerm) (h0 : t0 ∈ terms) (hact : isActive now t0 = true)
    (hlo : date20000101 ≤ now) (hhi : now ≤ date21000101) :
    ((∃ t ∈ terms, isActive now t = true
        ∧ (computeTermWindow terms now).termBeginDate = t.StartDate)
      ∧ (∀ t ∈ terms, isActive now t = true →
          (computeTermWindow terms now).termBeginDate ≤ t.StartDate))
    ∧ ((∃ t ∈ terms, isActive now t = true
        ∧ (computeTermWindow terms now).termDueDate = t.EndDate)
      ∧ (∀ t ∈ terms, isActive now t = true →
          t.EndDate ≤ (computeTermWindow terms now).termDueDate)) := by
  rcases computeTermWindow_begin_spec terms now with ⟨hbdisj, hball⟩
  rcases computeTermWindow_due_spec terms now with ⟨hddisj, hdall⟩
  have hprops := (isActive_iff now t0).mp hact
  have hstart0 : t0.StartDate < now := hprops.1
  have hend0 : now < t0.EndDate := hprops.2.1
  have h2000 : date20000101 = 10957 := rfl
  have h2100 : date21000101 = 47482 := rfl
  constructor
  · refine ⟨?_, hball⟩
    rcases hbdisj with heq | hex
    · exfalso
      have hle0 := hball t0 h0 hact
      omega
    · exact hex
  · refine ⟨?_, hdall⟩
    rcases hddisj with heq | hex
    · exfalso
      have hle0 := hdall t0 h0 hact
      omega
    · exact hex

/-- C5 witness: the spec example -- a Q1 term and an S1 semester term sharing
    dates, with now inside both; the window is Q1 alone. -/
theorem C5_witness :
    ((⟨1, "Q1", 19723, 19797⟩ : ReportingTerm)
        ∈ ([⟨1, "Q1", 19723, 19797⟩, ⟨2, "S1", 19723, 19875⟩] : List ReportingTerm))
    ∧ isActive 19754 ⟨1, "Q1", 19723, 19797⟩ = true
    ∧ (((∃ t ∈ ([⟨1, "Q1", 19723, 19797⟩, ⟨2, "S1", 19723, 19875⟩]
            : List ReportingTerm), isActive 19754 t = true
          ∧ (computeTermWindow [⟨1, "Q1", 19723, 19797⟩, ⟨2, "S1", 19723, 19875⟩]
              19754).termBeginDate = t.StartDate)
        ∧ (∀ t ∈ ([⟨1, "Q1", 19723, 19797⟩, ⟨2, "S1", 19723, 19875⟩]
            : List ReportingTerm), isActive 19754 t = true →
            (computeTermWindow [⟨1, "Q1", 19723, 19797⟩, ⟨2, "S1", 19723, 19875⟩]
              19754).termBeginDate ≤ t.StartDate))
      ∧ ((∃ t ∈ ([⟨1, "Q1", 19723, 19797⟩, ⟨2, "S1", 19723, 19875⟩]
            : List ReportingTerm), isActive 19754 t = true
          ∧ (computeTermWindow [⟨1, "Q1", 19723, 19797⟩, ⟨2, "S1", 19723, 19875⟩]
              19754).termDueDate = t.EndDate)
        ∧ (∀ t ∈ ([⟨1, "Q1", 19723, 19797⟩, ⟨2, "S1", 19723, 19875⟩]
            : List ReportingTerm), isActive 19754 t = true →
            t.EndDate ≤ (computeTermWindow [⟨1, "Q1", 19723, 19797⟩,
              ⟨2, "S1", 19723, 19875⟩] 19754).termDueDate))) :=
  ⟨by decide, by decide,
   C5_window_union_of_active_terms
     [⟨1, "Q1", 19723, 19797⟩, ⟨2, "S1", 19723, 19875⟩] 19754
     ⟨1, "Q1", 19723, 19797⟩ (by decide) (by decide) (by decide) (by decide)⟩

/-- C7: per collection kind, zero diff events yield no notification (the code
    only logs), and one or more events yield exactly one message, the newline
    join of the rendered events; the class and assignment messages are
    computed from their own collections only and delivered as the two separate
    components of the cycle, never merged. -/
theorem C7_notification_contract (oldC newC : List Class)
    (oldA newA : List Assignment) :
    (classDiffEvents oldC newC = [] → compareGradesAndNotifyChanges oldC newC = none)
    ∧ (classDiffEvents oldC newC ≠ [] →
        compareGradesAndNotifyChanges oldC newC
          = some (joinLines ((classDiffEvents oldC newC).map renderClassEvent)))
    ∧ (assignDiffEvents oldA newA = [] →
        compareAssignmentsAndNotifyChanges oldA newA = none)
    ∧ (assignDiffEvents oldA newA ≠ [] →
        compareAssignmentsAndNotifyChanges oldA newA
          = some (joinLines ((assignDiffEvents oldA newA).map renderAssignEvent)))
    ∧ (∀ (st : SnapshotState) (student : Student) (now : Int),
        (fetchAndCompare st (some student) now).2
          = (compareGradesAndNotifyChanges st.classes (projectClasses student now),
             compareAssignmentsAndNotifyChanges st.assignments
               (projectAssignments student now))) := by
  refine ⟨?_, ?_, ?_, ?_, ?_⟩
  · intro h; rw [compareGrades_spec, if_pos h]
  · intro h; rw [compareGrades_spec, if_neg h]
  · intro h; rw [compareAssignments_spec, if_pos h]
  · intro h; rw [compareAssignments_spec, if_neg h]
  · intro st student now; rfl

/-- C7 witness: one added class produces one message; empty assignment diff
    produces none. -/
theorem C7_witness :
    compareGradesAndNotifyChanges [] [⟨1, "Math", "A"⟩]
        = some (joinLines ((classDiffEvents [] [⟨1, "Math", "A"⟩]).map
            renderClassEvent))
    ∧ compareAssignmentsAndNotifyChanges [] [] = none :=
  ⟨(C7_notification_contract [] [⟨1, "Math", "A"⟩] [] []).2.1 (by decide),
   (C7_notification_contract [] [⟨1, "Math", "A"⟩] [] []).2.2.1 (by decide)⟩

/- Helper facts shared by the C1/C2 proofs. -/

theorem contains_eq_false_of_not_mem (l : List Int) (a : Int) (h : a ∉ l) :
    l.contains a = false := by
  cases hc : l.contains a with
  | false => rfl
  | true => exact absurd (List.mem_of_elem_eq_true hc) h

theorem flatten_map_singleton {α β : Type} (f : α → β) :
    ∀ l : List α, (l.map (fun x => [f x])).flatten = l.map f := by
  intro l
  induction l with
  | nil => rfl
  | cons x rest ih => simp [ih]

theorem classOldGrades_lookup_none (oldC : List Class) (i : Int)
    (h : i ∉ oldC.map (fun c => c.ID)) :
    mapLookup (classOldGrades oldC) i = none := by
  rw [classOldGrades_lookup]
  rw [List.find?_eq_none.mpr, Option.map_none']
  intro c hc
  have hmem : c ∈ oldC := List.mem_reverse.mp hc
  have : c.ID ≠ i := fun hh => h (hh ▸ List.mem_map.mpr ⟨c, hmem, rfl⟩)
  simp [this]

theorem assignOldMap_lookup_none (oldA : List Assignment) (i : Int)
    (h : i ∉ oldA.map (fun a => a.ID)) :
    mapLookup (assignOldMap oldA) i = none := by
  rw [assignOldMap_lookup]
  rw [List.find?_eq_none.mpr]
  intro a ha
  have hmem : a ∈ oldA := List.mem_reverse.mp ha
  have : a.ID ≠ i := fun hh => h (hh ▸ List.mem_map.mpr ⟨a, hmem, rfl⟩)
  simp [this]

/-- C1 counterexample: the class diff never emits removed events.  With one
    old class and an empty new collection, the claim requires exactly one
    removed event, but compareGradesAndNotifyChanges builds no event at all
    (its source has no loop over the leftover old index). -/
theorem C1_counterexample :
    classDiffEvents [⟨1, "Math", "A"⟩] [] = []
    ∧ ((classDiffEvents [⟨1, "Math", "A"⟩] []).countP isRemovedEvent) = 0 :=
  ⟨rfl, rfl⟩

/-- C1 (amended): the removed-event contract holds for the assignment diff --
    exactly one removed event per old id absent from the new collection,
    carrying that record name and class name, and removed events only arise
    that way -- but the class diff (compareGradesAndNotifyChanges) emits no
    removed events at all. -/
theorem C1_removed_events (oldA newA : List Assignment)
    (hA : (oldA.map (fun a => a.ID)).Nodup) :
    (∀ a ∈ oldA, a.ID ∉ newA.map (fun b => b.ID) →
      (assignDiffEvents oldA newA).count
          (Event.removed a.ID a.Name a.ClassName) = 1)
    ∧ (∀ (i : Int) (n c : String),
        Event.removed i n c ∈ assignDiffEvents oldA newA →
        (∃ a ∈ oldA, a.ID = i ∧ a.Name = n ∧ a.ClassName = c)
          ∧ i ∉ newA.map (fun b => b.ID))
    ∧ (∀ (oldC newC : List Class) (i : Int) (n c : String),
        Event.removed i n c ∉ classDiffEvents oldC newC) := by
  refine ⟨?_, ?_, ?_⟩
  · intro a ha hnotnew
    unfold assignDiffEvents
    rw [List.count_append]
    have hcore : ((assignDiffCore oldA newA).1.count
        (Event.removed a.ID a.Name a.ClassName)) = 0 := by
      apply List.count_eq_zero_of_not_mem
      unfold assignDiffCore
      exact assignLoop_not_removed newA _ a.ID a.Name a.ClassName
    rw [hcore, Nat.zero_add]
    rw [assignDiffCore_snd, assignOldMap_eq_pairs oldA hA]
    unfold removedEventsOf
    rw [List.filter_map, List.map_map]
    rw [show ∀ l : List Event, l.count (Event.removed a.ID a.Name a.ClassName)
        = l.countP (fun e => e == Event.removed a.ID a.Name a.ClassName)
      from fun l => rfl]
    rw [List.countP_map, List.countP_filter]
    show (oldA.countP (fun b =>
        (Event.removed b.ID b.Name b.ClassName
            == Event.removed a.ID a.Name a.ClassName)
          && (!(List.map (fun a => a.ID) newA).contains b.ID))) = 1
    have hle : (oldA.countP (fun b =>
        (Event.removed b.ID b.Name b.ClassName
            == Event.removed a.ID a.Name a.ClassName)
          && (!(List.map (fun a => a.ID) newA).contains b.ID)))
        ≤ oldA.countP (fun b => b.ID == a.ID) := by
      apply List.countP_mono_left
      intro b hb hpred
      have h1 := (Bool.and_eq_true _ _).mp hpred
      have h2 : Event.removed b.ID b.Name b.ClassName
          = Event.removed a.ID a.Name a.ClassName := beq_iff_eq.mp h1.1
      injection h2 with e1 e2 e3
      simp [e1]
    have hcnt : oldA.countP (fun b => b.ID == a.ID)
        = (oldA.map (fun b => b.ID)).count a.ID := by
      rw [show ((oldA.map (fun b => b.ID)).count a.ID)
          = (oldA.map (fun b => b.ID)).countP (fun i => i == a.ID) from rfl]
      rw [List.countP_map]
      rfl
    have hnodup_le : (oldA.map (fun b => b.ID)).count a.ID ≤ 1 :=
      List.nodup_iff_count_le_one.mp hA a.ID
    have hpos : 0 < oldA.countP (fun b =>
        (Event.removed b.ID b.Name b.ClassName
            == Event.removed a.ID a.Name a.ClassName)
          && (!(List.map (fun a => a.ID) newA).contains b.ID)) := by
      rw [List.countP_pos_iff]
      refine ⟨a, ha, ?_⟩
      rw [Bool.and_eq_true]
      constructor
      · exact beq_iff_eq.mpr rfl
      · show (!(List.map (fun a => a.ID) newA).contains a.ID) = true
        rw [contains_eq_false_of_not_mem _ _ hnotnew]
        rfl
    omega
  · intro i n c hmem
    unfold assignDiffEvents at hmem
    rcases List.mem_append.mp hmem with h | h
    · exact absurd h (by
        unfold assignDiffCore
        exact assignLoop_not_removed newA _ i n c)
    · unfold removedEventsOf at h
      rcases List.mem_map.mp h with ⟨p, hp, hpe⟩
      rcases mem_assignDiffCore_snd oldA newA p hp with ⟨⟨x, hx, hpx⟩, hnot⟩
      have hp2 : p.2 = x := by rw [hpx]
      have hp1 : p.1 = x.ID := by rw [hpx]
      injection hpe with e1 e2 e3
      rw [hp2] at e1 e2 e3
      refine ⟨⟨x, hx, e1, e2, e3⟩, ?_⟩
      have hip : i = p.1 := by rw [hp1, ← e1]
      rw [hip]
      exact hnot
  · intro oldC newC i n c
    exact classDiffEvents_no_removed oldC newC i n c

/-- C1 witness: one old assignment, empty new collection: exactly one removed
    event for it. -/
theorem C1_removed_events_witness :
    ((([⟨1, "essay", "90%", 7, "Math"⟩] : List Assignment).map
        (fun a => a.ID)).Nodup)
    ∧ (assignDiffEvents [⟨1, "essay", "90%", 7, "Math"⟩] []).count
        (Event.removed 1 "essay" "Math") = 1 :=
  ⟨by decide,
   (C1_removed_events [⟨1, "essay", "90%", 7, "Math"⟩] [] (by decide)).1
     ⟨1, "essay", "90%", 7, "Math"⟩ (by decide) (by decide)⟩

/-- C2 counterexample: disjoint old/new assignment collections with a nonempty
    old side: the diff emits one removed event (for the old record), not
    zero. -/
theorem C2_counterexample :
    ((([⟨1, "hw one", "90%", 7, "Math"⟩] : List Assignment).map
        (fun a => a.ID)).all (fun i =>
          !((([⟨2, "hw two", "80%", 7, "Math"⟩] : List Assignment).map
            (fun a => a.ID)).contains i))) = true
    ∧ ((assignDiffEvents [⟨1, "hw one", "90%", 7, "Math"⟩]
        [⟨2, "hw two", "80%", 7, "Math"⟩]).countP isRemovedEvent) = 1 :=
  ⟨by decide, by decide⟩

/-- C2 (amended): for disjoint id sets, the class diff is exactly one added
    event per new record in iteration order with no removed events; the
    assignment diff is one added event per new record in iteration order
    followed by exactly one removed event per old record (so zero removed
    events only when the old collection is empty). -/
theorem C2_disjoint_diff (oldA newA : List Assignment) (oldC newC : List Class)
    (hdA : ∀ a ∈ newA, a.ID ∉ oldA.map (fun b => b.ID))
    (hrA : ∀ b ∈ oldA, b.ID ∉ newA.map (fun a => a.ID))
    (hdC : ∀ c ∈ newC, c.ID ∉ oldC.map (fun d => d.ID))
    (hA : (oldA.map (fun b => b.ID)).Nodup) :
    classDiffEvents oldC newC
        = newC.map (fun c => Event.added c.ID c.Name "" c.Grade)
    ∧ assignDiffEvents oldA newA
        = newA.map (fun a => Event.added a.ID a.Name a.ClassName a.Grade)
          ++ oldA.map (fun a => Event.removed a.ID a.Name a.ClassName) := by
  constructor
  · rw [classDiffEvents_eq_join]
    rw [List.map_congr_left (fun c hc => classStep_none (classOldGrades oldC) c
      (classOldGrades_lookup_none oldC c.ID (hdC c hc)))]
    exact flatten_map_singleton _ newC
  · unfold assignDiffEvents
    have hcore : (assignDiffCore oldA newA).1
        = newA.map (fun a => Event.added a.ID a.Name a.ClassName a.Grade) := by
      unfold assignDiffCore
      exact assignLoop_all_added newA _
        (fun a ha => assignOldMap_lookup_none oldA a.ID (hdA a ha))
    have hsnd : removedEventsOf (assignDiffCore oldA newA).2
        = oldA.map (fun a => Event.removed a.ID a.Name a.ClassName) := by
      rw [assignDiffCore_snd, assignOldMap_eq_pairs oldA hA]
      rw [List.filter_eq_self.mpr]
      · unfold removedEventsOf
        rw [List.map_map]
        rfl
      · intro p hp
        rcases List.mem_map.mp hp with ⟨b, hb, rfl⟩
        rw [contains_eq_false_of_not_mem _ _ (hrA b hb)]
        rfl
    rw [hcore, hsnd]

/-- C2 witness: one old and one disjoint new assignment plus one new class:
    added then removed events. -/
theorem C2_disjoint_diff_witness :
    ((∀ a ∈ ([⟨2, "quiz", "80%", 7, "Art"⟩] : List Assignment),
        a.ID ∉ ([⟨1, "hw", "90%", 7, "Math"⟩] : List Assignment).map
          (fun b => b.ID))
      ∧ (([⟨1, "hw", "90%", 7, "Math"⟩] : List Assignment).map
          (fun b => b.ID)).Nodup)
    ∧ assignDiffEvents [⟨1, "hw", "90%", 7, "Math"⟩] [⟨2, "quiz", "80%", 7, "Art"⟩]
        = [Event.added 2 "quiz" "Art" "80%", Event.removed 1 "hw" "Math"]
    ∧ classDiffEvents [] [⟨3, "Art", "C"⟩] = [Event.added 3 "Art" "" "C"] := by
  have h := C2_disjoint_diff [⟨1, "hw", "90%", 7, "Math"⟩]
    [⟨2, "quiz", "80%", 7, "Art"⟩] [] [⟨3, "Art", "C"⟩]
    (by decide) (by decide) (by decide) (by decide)
  exact ⟨⟨by decide, by decide⟩, h.2, h.1⟩

/- Lookup of a record own id in an index built from a Nodup collection. -/

theorem assignOldMap_lookup_self (oldA : List Assignment) (a : Assignment)
    (hA : (oldA.map (fun a => a.ID)).Nodup) (ha : a ∈ oldA) :
    mapLookup (assignOldMap oldA) a.ID = some a := by
  rw [assignOldMap_eq_pairs oldA hA]
  exact mapLookup_map_pairs (fun a => a.ID) (fun a => a) oldA a hA ha

theorem classOldGrades_lookup_self (oldC : List Class) (c : Class)
    (hC : (oldC.map (fun c => c.ID)).Nodup) (hc : c ∈ oldC) :
    mapLookup (classOldGrades oldC) c.ID = some c.Grade := by
  rw [classOldGrades_eq_pairs oldC hC]
  exact mapLookup_map_pairs (fun c => c.ID) (fun c => c.Grade) oldC c hC hc

/-- C9: a record id present in both collections with equal grade strings
    produces no event at all for that id -- in either diff -- even when the
    record name (or an assignment class name) differs between the
    generations: name changes alone are never reported. -/
theorem C9_equal_grades_no_event (oldA newA : List Assignment)
    (oldC newC : List Class)
    (hoA : (oldA.map (fun a => a.ID)).Nodup)
    (hnA : (newA.map (fun a => a.ID)).Nodup)
    (hoC : (oldC.map (fun c => c.ID)).Nodup)
    (hnC : (newC.map (fun c => c.ID)).Nodup) :
    (∀ a b, a ∈ oldA → b ∈ newA → a.ID = b.ID → a.Grade = b.Grade →
      ∀ e ∈ assignDiffEvents oldA newA, eventId e ≠ a.ID)
    ∧ (∀ a b, a ∈ oldC → b ∈ newC → a.ID = b.ID → a.Grade = b.Grade →
      ∀ e ∈ classDiffEvents oldC newC, eventId e ≠ a.ID) := by
  constructor
  · intro a b ha hb hid hgrade e he
    have hlook : mapLookup (assignOldMap oldA) a.ID = some a :=
      assignOldMap_lookup_self oldA a hoA ha
    have hcount : (newA.map (fun a => a.ID)).count a.ID ≤ 1 :=
      List.nodup_iff_count_le_one.mp hnA a.ID
    have hmatch : ∀ x ∈ newA, x.ID = a.ID → x.Grade = a.Grade := by
      intro x hx hxid
      have hxb : x = b := by
        apply List.inj_on_of_nodup_map hnA hx hb
        rw [hxid, hid]
      rw [hxb, ← hgrade]
    unfold assignDiffEvents at he
    rcases List.mem_append.mp he with h | h
    · have hzero : ((assignDiffCore oldA newA).1.countP
          (fun e => eventId e == a.ID)) = 0 := by
        unfold assignDiffCore
        exact assignLoop_countP_zero_of_match newA _ a.ID a hlook hcount hmatch
      have := List.countP_eq_zero.mp hzero e h
      simpa using this
    · unfold removedEventsOf at h
      rcases List.mem_map.mp h with ⟨p, hp, hpe⟩
      rcases mem_assignDiffCore_snd oldA newA p hp with ⟨⟨x, hx, hpx⟩, hnot⟩
      have he1 : eventId e = p.2.ID := by rw [← hpe]; rfl
      have hp21 : p.2.ID = p.1 := by rw [hpx]
      intro hcontra
      apply hnot
      rw [← hp21, ← he1, hcontra, hid]
      exact List.mem_map.mpr ⟨b, hb, rfl⟩
  · intro a b ha hb hid hgrade e he
    rcases classDiffEvents_mem oldC newC e he with ⟨c, hc, hstep⟩
    have heid : eventId e = c.ID := (classStep_mem _ _ _ hstep).1
    intro hcontra
    have hcb : c = b := by
      apply List.inj_on_of_nodup_map hnC hc hb
      rw [← hid, ← hcontra, ← heid]
    rw [hcb] at hstep
    have hlook : mapLookup (classOldGrades oldC) b.ID = some a.Grade := by
      rw [← hid]
      exact classOldGrades_lookup_self oldC a hoC ha
    rw [classStep_some _ _ _ hlook] at hstep
    rw [if_neg (fun hne => hne hgrade)] at hstep
    exact absurd hstep (List.not_mem_nil e)

/-- C9 witness: same id, same grade, different name and class name in both
    collections: the assignment diff has no event with that id. -/
theorem C9_witness :
    ((([⟨1, "old name", "90%", 7, "X"⟩] : List Assignment).map
        (fun a => a.ID)).Nodup)
    ∧ ((assignDiffEvents [⟨1, "old name", "90%", 7, "X"⟩]
        [⟨1, "new name", "90%", 7, "Y"⟩]).countP
          (fun e => eventId e == 1)) = 0 :=
  ⟨by decide,
   List.countP_eq_zero.mpr (fun e he => by
     have h := (C9_equal_grades_no_event [⟨1, "old name", "90%", 7, "X"⟩]
         [⟨1, "new name", "90%", 7, "Y"⟩] [] []
         (by decide) (by decide) (by decide) (by decide)).1
       ⟨1, "old name", "90%", 7, "X"⟩ ⟨1, "new name", "90%", 7, "Y"⟩
       (by decide) (by decide) (by decide) (by decide) e he
     simpa using h)⟩

/- Per-id event count for the class diff. -/

theorem classDiff_countP_le :
    ∀ (newC : List Class) (g : List (Int × String)) (i : Int),
      (((newC.map (classStep g)).flatten).countP (fun e => eventId e == i))
        ≤ (newC.map (fun c => c.ID)).count i := by
  intro newC
  induction newC with
  | nil => intro g i; simp
  | cons c rest ih =>
    intro g i
    rw [List.map_cons, List.flatten_cons, List.countP_append, List.map_cons,
        List.count_cons]
    have hstep : ((classStep g c).countP (fun e => eventId e == i))
        ≤ if (i == c.ID) = true then 1 else 0 := by
      by_cases hid : c.ID = i
      · have h1 : ((classStep g c).countP (fun e => eventId e == i))
            ≤ (classStep g c).length := List.countP_le_length _
        have h2 := classStep_length_le g c
        have h3 : (if (i == c.ID) = true then 1 else 0) = 1 := by
          simp [hid]
        omega
      · have h0 : ((classStep g c).countP (fun e => eventId e == i)) = 0 := by
          rw [List.countP_eq_zero]
          intro e he
          have := (classStep_mem g c e he).1
          simp only [beq_eq_false_iff_ne, ne_eq, Bool.not_eq_true]
          rw [this]
          exact fun hh => hid hh
        omega
    have hflip : (if (i == c.ID) = true then 1 else 0)
        = (if (c.ID == i) = true then 1 else 0) := by
      by_cases h : c.ID = i
      · simp [h]
      · have h2 : ¬i = c.ID := fun hh => h hh.symm
        simp [h, h2]
    have := ih g i
    omega

/-- C10: when the old collection has duplicate ids, the old index keeps only
    the last occurrence per id (a lookup returns the last old record with that
    id, for both index kinds), and -- provided the new collection satisfies
    the id-uniqueness invariant -- each diff still emits at most one event per
    id. -/
theorem C10_duplicate_old_ids (oldA newA : List Assignment)
    (oldC newC : List Class)
    (hnA : (newA.map (fun a => a.ID)).Nodup)
    (hnC : (newC.map (fun c => c.ID)).Nodup) :
    (∀ i : Int, mapLookup (assignOldMap oldA) i
        = oldA.reverse.find? (fun a => a.ID == i))
    ∧ (∀ i : Int, mapLookup (classOldGrades oldC) i
        = (oldC.reverse.find? (fun c => c.ID == i)).map (fun c => c.Grade))
    ∧ (∀ i : Int,
        ((assignDiffEvents oldA newA).countP (fun e => eventId e == i)) ≤ 1)
    ∧ (∀ i : Int,
        ((classDiffEvents oldC newC).countP (fun e => eventId e == i)) ≤ 1) := by
  refine ⟨fun i => assignOldMap_lookup oldA i,
          fun i => classOldGrades_lookup oldC i, ?_, ?_⟩
  · intro i
    unfold assignDiffEvents
    rw [List.countP_append]
    by_cases hmem : i ∈ newA.map (fun a => a.ID)
    · have hcore : ((assignDiffCore oldA newA).1.countP
          (fun e => eventId e == i))
          ≤ (newA.map (fun a => a.ID)).count i := by
        unfold assignDiffCore
        exact assignLoop_countP_le newA _ i
      have hcount : (newA.map (fun a => a.ID)).count i ≤ 1 :=
        List.nodup_iff_count_le_one.mp hnA i
      have hrem : ((removedEventsOf (assignDiffCore oldA newA).2).countP
          (fun e => eventId e == i)) = 0 := by
        rw [List.countP_eq_zero]
        intro e he
        unfold removedEventsOf at he
        rcases List.mem_map.mp he with ⟨p, hp, hpe⟩
        rcases mem_assignDiffCore_snd oldA newA p hp with ⟨⟨x, hx, hpx⟩, hnot⟩
        have he1 : eventId e = p.2.ID := by rw [← hpe]; rfl
        have hp21 : p.2.ID = p.1 := by rw [hpx]
        simp only [beq_eq_false_iff_ne, ne_eq, Bool.not_eq_true]
        intro hcontra
        apply hnot
        have hpi : p.1 = i := by rw [← hp21, ← he1, hcontra]
        rw [hpi]
        exact hmem
      omega
    · have hcore : ((assignDiffCore oldA newA).1.countP
          (fun e => eventId e == i)) = 0 := by
        unfold assignDiffCore
        exact assignLoop_countP_zero_of_not_mem newA _ i hmem
      have hrem : ((removedEventsOf (assignDiffCore oldA newA).2).countP
          (fun e => eventId e == i))
          ≤ (mapKeys (assignDiffCore oldA newA).2).count i := by
        unfold removedEventsOf
        rw [List.countP_map]
        rw [show ((mapKeys (assignDiffCore oldA newA).2).count i)
            = ((mapKeys (assignDiffCore oldA newA).2).countP
                (fun k => k == i)) from rfl]
        unfold mapKeys
        rw [List.countP_map]
        apply List.countP_mono_left
        intro p hp hpred
        rcases mem_assignDiffCore_snd oldA newA p hp with ⟨⟨x, hx, hpx⟩, hnot⟩
        have hp21 : p.2.ID = p.1 := by rw [hpx]
        show (p.1 == i) = true
        rw [← hp21]
        exact hpred
      have hkeys : (mapKeys (assignDiffCore oldA newA).2).count i ≤ 1 :=
        List.nodup_iff_count_le_one.mp
          (nodup_mapKeys_assignDiffCore_snd oldA newA) i
      omega
  · intro i
    rw [classDiffEvents_eq_join]
    have h1 := classDiff_countP_le newC (classOldGrades oldC) i
    have h2 : (newC.map (fun c => c.ID)).count i ≤ 1 :=
      List.nodup_iff_count_le_one.mp hnC i
    omega

/-- C10 witness: an old collection with a duplicated id 1: the lookup keeps
    the last record and the diff against an empty new collection emits at
    most one event for id 1. -/
theorem C10_witness :
    ((([] : List Assignment).map (fun a => a.ID)).Nodup)
    ∧ mapLookup (assignOldMap
          [⟨1, "first", "1%", 0, "X"⟩, ⟨1, "second", "2%", 0, "X"⟩]) 1
        = ([⟨1, "first", "1%", 0, "X"⟩, ⟨1, "second", "2%", 0, "X"⟩]
            : List Assignment).reverse.find? (fun a => a.ID == 1)
    ∧ ((assignDiffEvents
          [⟨1, "first", "1%", 0, "X"⟩, ⟨1, "second", "2%", 0, "X"⟩] []).countP
        (fun e => eventId e == 1)) ≤ 1 :=
  ⟨by decide,
   (C10_duplicate_old_ids
      [⟨1, "first", "1%", 0, "X"⟩, ⟨1, "second", "2%", 0, "X"⟩] [] [] []
      (by decide) (by decide)).1 1,
   (C10_duplicate_old_ids
      [⟨1, "first", "1%", 0, "X"⟩, ⟨1, "second", "2%", 0, "X"⟩] [] [] []
      (by decide) (by decide)).2.2.1 1⟩

/- The entry-order run is one admissible run of the removed-events loop. -/

theorem removedEventsOrd_keys :
    ∀ (m : List (Int × Assignment)), (mapKeys m).Nodup →
      removedEventsOrd m (mapKeys m) = removedEventsOf m := by
  intro m
  induction m with
  | nil => intro _; rfl
  | cons p rest ih =>
    intro h
    have hkeys : mapKeys (p :: rest) = p.1 :: mapKeys rest := rfl
    rw [hkeys]
    unfold removedEventsOrd
    rw [List.filterMap_cons]
    have hp : mapLookup (p :: rest) p.1 = some p.2 := by
      rw [mapLookup_cons, if_pos rfl]
    rw [show ((mapLookup (p :: rest) p.1).map
        (fun a => Event.removed a.ID a.Name a.ClassName))
      = some (Event.removed p.2.ID p.2.Name p.2.ClassName) from by rw [hp]; rfl]
    have hnodup := List.nodup_cons.mp (hkeys ▸ h)
    have hcong : ∀ k ∈ mapKeys rest,
        ((mapLookup (p :: rest) k).map
          (fun a => Event.removed a.ID a.Name a.ClassName))
        = ((mapLookup rest k).map
          (fun a => Event.removed a.ID a.Name a.ClassName)) := by
      intro k hk
      rw [mapLookup_cons, if_neg (show ¬p.1 = k from fun hh => hnodup.1 (by rw [hh]; exact hk))]
    rw [List.filterMap_congr hcong]
    have hrest := ih hnodup.2
    unfold removedEventsOrd at hrest
    rw [hrest]
    rfl

/-- C3 counterexample: two runs on identical inputs that differ only in the
    unspecified Go map range order give different event sequences: both
    [1, 2] and [2, 1] are permutations of the leftover old index keys, yet
    the removed events come out in opposite orders, so the output sequence is
    not reproducible from the inputs alone. -/
theorem C3_counterexample :
    ([1, 2] : List Int).Perm
        (mapKeys (assignDiffCore
          [⟨1, "hw one", "90%", 7, "Math"⟩, ⟨2, "hw two", "80%", 8, "Art"⟩] []).2)
    ∧ ([2, 1] : List Int).Perm
        (mapKeys (assignDiffCore
          [⟨1, "hw one", "90%", 7, "Math"⟩, ⟨2, "hw two", "80%", 8, "Art"⟩] []).2)
    ∧ assignDiffEventsOrd
        [⟨1, "hw one", "90%", 7, "Math"⟩, ⟨2, "hw two", "80%", 8, "Art"⟩] [] [1, 2]
      ≠ assignDiffEventsOrd
        [⟨1, "hw one", "90%", 7, "Math"⟩, ⟨2, "hw two", "80%", 8, "Art"⟩] [] [2, 1] :=
  ⟨by decide, by decide, by decide⟩

/-- C3 (amended): the grade-changed/added prefix of the assignment diff is
    fully determined by the inputs and appears in new-record iteration order
    (two admissible runs agree on it exactly), and the removed events of two
    runs are the same multiset; but their relative order follows the
    unspecified map range order, so two runs agree only up to a permutation of
    the removed suffix.  The entry-order run assignDiffEvents is one
    admissible run. -/
theorem C3_diff_determinism (old new : List Assignment) (ks ks2 : List Int)
    (h : ks.Perm (mapKeys (assignDiffCore old new).2))
    (h2 : ks2.Perm (mapKeys (assignDiffCore old new).2)) :
    assignDiffEvents old new
        = assignDiffEventsOrd old new (mapKeys (assignDiffCore old new).2)
    ∧ (assignDiffEventsOrd old new ks).take (assignDiffCore old new).1.length
        = (assignDiffEventsOrd old new ks2).take (assignDiffCore old new).1.length
    ∧ (assignDiffEventsOrd old new ks).Perm (assignDiffEventsOrd old new ks2) := by
  refine ⟨?_, ?_, ?_⟩
  · unfold assignDiffEvents assignDiffEventsOrd
    rw [removedEventsOrd_keys _ (nodup_mapKeys_assignDiffCore_snd old new)]
  · unfold assignDiffEventsOrd
    rw [List.take_left, List.take_left]
  · unfold assignDiffEventsOrd
    apply List.Perm.append_left
    exact (h.trans h2.symm).filterMap _

/-- C3 witness: a singleton leftover index, where the only admissible order is
    the singleton key list. -/
theorem C3_diff_determinism_witness :
    (([1] : List Int).Perm
        (mapKeys (assignDiffCore [⟨1, "hw", "90%", 7, "M"⟩] []).2))
    ∧ (assignDiffEventsOrd [⟨1, "hw", "90%", 7, "M"⟩] [] [1]).Perm
        (assignDiffEventsOrd [⟨1, "hw", "90%", 7, "M"⟩] [] [1]) :=
  ⟨by decide,
   (C3_diff_determinism [⟨1, "hw", "90%", 7, "M"⟩] [] [1] [1]
     (by decide) (by decide)).2.2⟩

/-- C4: the record projector keeps a raw assignment exactly when its due date
    lies strictly inside the derived window and its id has an entry in the
    score map; every score-map entry comes from a non-empty raw score and is
    that score string with a trailing percent sign, which becomes the
    projected grade; the projected class name is the name of the first
    projected class whose id equals the assignment section id, or the empty
    string if none matches; and an assignment all of whose score entries are
    empty never appears in the projected collection. -/
theorem C4_record_projector (student : Student) (now : Int) :
    (∀ a : Assignment, a ∈ projectAssignments student now ↔
      ∃ raw, raw ∈ student.Assignments
        ∧ (computeTermWindow student.ReportingTerms now).termBeginDate < raw.DueDate
        ∧ raw.DueDate < (computeTermWindow student.ReportingTerms now).termDueDate
        ∧ ∃ g, mapLookup (buildScoreMap student.AssignmentScores) raw.Id = some g
          ∧ a = { ID := raw.Id, Name := raw.Name, Grade := g,
                  ClassID := raw.Sectionid,
                  ClassName := (((projectClasses student now).find?
                    (fun c => c.ID == raw.Sectionid)).map (fun c => c.Name)).getD "" })
    ∧ (∀ (k : Int) (g : String),
        mapLookup (buildScoreMap student.AssignmentScores) k = some g →
        ∃ s, s ∈ student.AssignmentScores ∧ s.AssignmentId = k ∧ s.Score ≠ ""
          ∧ g = s.Score ++ "%")
    ∧ (∀ k : Int,
        (∀ s ∈ student.AssignmentScores, s.AssignmentId = k → s.Score = "") →
        ∀ a ∈ projectAssignments student now, a.ID ≠ k) := by
  have hscore : ∀ (k : Int) (g : String),
      mapLookup (buildScoreMap student.AssignmentScores) k = some g →
      ∃ s, s ∈ student.AssignmentScores ∧ s.AssignmentId = k ∧ s.Score ≠ ""
        ∧ g = s.Score ++ "%" := by
    intro k g hg
    rw [buildScoreMap_lookup] at hg
    rcases Option.map_eq_some'.mp hg with ⟨sEntry, hfind, hval⟩
    have hsmem : sEntry ∈ student.AssignmentScores :=
      List.mem_reverse.mp (List.mem_of_find?_eq_some hfind)
    have hpred := List.find?_some hfind
    rw [Bool.and_eq_true] at hpred
    refine ⟨sEntry, hsmem, beq_iff_eq.mp hpred.2, ?_, hval.symm⟩
    intro hempty
    rw [hempty] at hpred
    simpa using hpred.1
  have hmem_iff : ∀ a : Assignment, a ∈ projectAssignments student now ↔
      ∃ raw, raw ∈ student.Assignments
        ∧ (computeTermWindow student.ReportingTerms now).termBeginDate < raw.DueDate
        ∧ raw.DueDate < (computeTermWindow student.ReportingTerms now).termDueDate
        ∧ ∃ g, mapLookup (buildScoreMap student.AssignmentScores) raw.Id = some g
          ∧ a = { ID := raw.Id, Name := raw.Name, Grade := g,
                  ClassID := raw.Sectionid,
                  ClassName := (((projectClasses student now).find?
                    (fun c => c.ID == raw.Sectionid)).map (fun c => c.Name)).getD "" } := by
    intro a
    rw [projectAssignments_eq_filterMap, List.mem_filterMap]
    constructor
    · rintro ⟨raw, hraw, hproj⟩
      unfold assignProj at hproj
      by_cases hcond : raw.DueDate
            < (computeTermWindow student.ReportingTerms now).termDueDate
          ∧ (computeTermWindow student.ReportingTerms now).termBeginDate
            < raw.DueDate
      · rw [if_pos hcond] at hproj
        cases hg : mapLookup (buildScoreMap student.AssignmentScores) raw.Id with
        | none => rw [hg] at hproj; exact absurd hproj (by simp)
        | some g =>
          rw [hg] at hproj
          refine ⟨raw, hraw, hcond.2, hcond.1, g, hg, ?_⟩
          have := Option.some.inj hproj
          rw [← this]
      · rw [if_neg hcond] at hproj
        exact absurd hproj (by simp)
    · rintro ⟨raw, hraw, hlo, hhi, g, hg, ha⟩
      refine ⟨raw, hraw, ?_⟩
      unfold assignProj
      rw [if_pos ⟨hhi, hlo⟩, hg, ha]
  refine ⟨hmem_iff, hscore, ?_⟩
  intro k hall a ha hak
  rcases (hmem_iff a).mp ha with ⟨raw, hraw, hlo, hhi, g, hg, haeq⟩
  have hid : a.ID = raw.Id := by rw [haeq]
  rcases hscore raw.Id g hg with ⟨sEntry, hsmem, hsid, hsne, hsval⟩
  exact hsne (hall sEntry hsmem (by rw [hsid, ← hid, hak]))

/-- C4 witness: a student with one active quarter term, one section, one
    graded assignment strictly inside the window: the projected record,
    including its percent-formatted grade and resolved class name, is in the
    projected collection. -/
theorem C4_record_projector_witness :
    (⟨5, "essay", "95%", 7, "Math"⟩ : Assignment)
      ∈ projectAssignments
          (Student.mk [⟨7, "Math"⟩] [⟨1, "Q1", 19723, 19797⟩] [⟨7, 1, "A"⟩]
            [⟨5, "essay", 7, 19750⟩] [⟨5, "95"⟩]) 19754 :=
  ((C4_record_projector
      (Student.mk [⟨7, "Math"⟩] [⟨1, "Q1", 19723, 19797⟩] [⟨7, 1, "A"⟩]
        [⟨5, "essay", 7, 19750⟩] [⟨5, "95"⟩]) 19754).1
    ⟨5, "essay", "95%", 7, "Math"⟩).mpr
    ⟨⟨5, "essay", 7, 19750⟩, by decide, by decide, by decide, "95%", by decide,
     by decide⟩

end PSNotifier
